import Mathlib

/-!
# Verification of the mouse2 toolkit against its specification

This file shallowly embeds the parts of the mouse2 repository that the
verified properties talk about:

* `calculate_aggregation.py` — the aggregate detector `determine_aggregates`
  and its command-line wrapper.  The neighbor-list engine it calls
  (`calculate_neighborlists_from_distances`, module `aggregation`) is not part
  of the listing and is modelled from the specification's contract (§4.1).
  The NetworkX graph is embedded as its edge list; `dfs_postorder_nodes` is
  embedded as a fuelled depth-first search that errors (Python `KeyError`)
  when its source is not a node of the graph, exactly as NetworkX does when
  the source was never added by `add_edge`.
* `mouse2_tests/create_configuration.py` — the synthetic configuration
  generator.  The two random sources are made explicit: `random.random()`
  (seeded with 42) is a stream `Nat → ℝ`, and `Rotation.random()`
  (scipy/numpy, not seeded by `random.seed`) is a stream `Nat → Mat3` of
  rotation matrices; draws are consumed in program order.
* `utilities.py` — `normalize_vectors`.

Positions handled by the analysis code are embedded over `ℚ` (keeping the
engine executable); the generator and the vector utility, which use
`math.cos`/`math.sin`/Euclidean norms, are embedded over `ℝ`.
-/

namespace Mouse2

/-! ## Graph embedding: NetworkX graph built by repeated `add_edge` -/

/-- Python exceptions that the aggregate detector can raise:
`KeyError` from `nx.dfs_postorder_nodes` seeded at a missing node, and
`ValueError` from `list.remove` on an absent element.  `fuelOut` is an
artifact of the fuelled embedding of the `while` loop; it is never produced
for the fuel the embedding supplies (see `partitionLoop_no_fuelOut`). -/
inductive PyErr where
  | keyError : PyErr
  | valueError : PyErr
  | fuelOut : PyErr
deriving DecidableEq, Repr

/-- The nodes of the graph: every endpoint of an added edge.  NetworkX's
`add_edge(a, b)` registers both `a` and `b` as nodes; no other nodes exist
because `determine_aggregates` only ever calls `add_edge`. -/
def nodeList (E : List (Nat × Nat)) : List Nat :=
  E.flatMap (fun e => [e.1, e.2])

/-- Adjacency in the undirected graph built from the edge list `E`. -/
def Adj (E : List (Nat × Nat)) (x y : Nat) : Prop :=
  (x, y) ∈ E ∨ (y, x) ∈ E

instance (E : List (Nat × Nat)) (x y : Nat) : Decidable (Adj E x y) := by
  unfold Adj; infer_instance

/-- The neighbors of `x`: targets of edges out of `x` plus sources of edges
into `x` (the undirected adjacency of the edge list). -/
def adjList (E : List (Nat × Nat)) (x : Nat) : List Nat :=
  (E.filter (fun e => e.1 == x)).map Prod.snd ++
    (E.filter (fun e => e.2 == x)).map Prod.fst

/-- Reachability: reflexive-transitive closure of adjacency.  The connected
component of `x` is exactly the set of nodes reachable from `x`. -/
def Reach (E : List (Nat × Nat)) : Nat → Nat → Prop :=
  Relation.ReflTransGen (Adj E)

theorem mem_adjList_iff (E : List (Nat × Nat)) (x y : Nat) :
    y ∈ adjList E x ↔ Adj E x y := by
  simp only [adjList, List.mem_append, List.mem_map, List.mem_filter, Adj]
  constructor
  · rintro (⟨e, ⟨he, hx⟩, rfl⟩ | ⟨e, ⟨he, hx⟩, rfl⟩)
    · left
      have : e.1 = x := by simpa using hx
      simpa [← this] using he
    · right
      have : e.2 = x := by simpa using hx
      simpa [← this] using he
  · rintro (h | h)
    · exact Or.inl ⟨(x, y), ⟨h, by simp⟩, rfl⟩
    · exact Or.inr ⟨(y, x), ⟨h, by simp⟩, rfl⟩

theorem adj_symm (E : List (Nat × Nat)) {x y : Nat} (h : Adj E x y) :
    Adj E y x := h.symm

theorem adj_mem_nodeList_left (E : List (Nat × Nat)) {x y : Nat}
    (h : Adj E x y) : x ∈ nodeList E := by
  rcases h with h | h
  · exact List.mem_flatMap.mpr ⟨(x, y), h, by simp⟩
  · exact List.mem_flatMap.mpr ⟨(y, x), h, by simp⟩

theorem adj_mem_nodeList_right (E : List (Nat × Nat)) {x y : Nat}
    (h : Adj E x y) : y ∈ nodeList E :=
  adj_mem_nodeList_left E (adj_symm E h)

theorem reach_symm (E : List (Nat × Nat)) {x y : Nat} (h : Reach E x y) :
    Reach E y x :=
  Relation.ReflTransGen.symmetric (fun _ _ hadj => adj_symm E hadj) h

theorem reach_mem_nodeList (E : List (Nat × Nat)) {x y : Nat}
    (h : Reach E x y) (hne : x ≠ y) : y ∈ nodeList E := by
  induction h with
  | refl => exact absurd rfl hne
  | tail _ hadj _ => exact adj_mem_nodeList_right E hadj

/-! ## Depth-first search

Embedding of `nx.dfs_postorder_nodes(graph, source)`.  The traversal visits
exactly the connected component of the source; the embedding returns the
visited nodes as a list (each exactly once).  The order in which NetworkX
yields them (DFS postorder) is not modelled — none of the verified
properties depend on the order of atoms inside one aggregate. -/

/-- Fuelled DFS.  `dfsF E fuel x vis` visits `x` and (recursively) its
neighbors, threading the list of already-visited nodes. -/
def dfsF (E : List (Nat × Nat)) : Nat → Nat → List Nat → List Nat
  | 0, _, vis => vis
  | fuel + 1, x, vis =>
      if x ∈ vis then vis
      else (adjList E x).foldl (fun v y => dfsF E fuel y v) (x :: vis)

/-- The list of nodes visited by a DFS from `s` on the whole graph: fuel one
more than the number of (listed) nodes always suffices. -/
def dfsVisited (E : List (Nat × Nat)) (s : Nat) : List Nat :=
  dfsF E ((nodeList E).length + 1) s []

theorem dfsF_subset (E : List (Nat × Nat)) :
    ∀ (fuel x : Nat) (vis : List Nat), vis ⊆ dfsF E fuel x vis := by
  intro fuel
  induction fuel with
  | zero => intro x vis; simp [dfsF]
  | succ f ih =>
      intro x vis
      unfold dfsF
      by_cases hx : x ∈ vis
      · simp [hx]
      · simp only [hx, if_false]
        have hfold : ∀ (l : List Nat) (v : List Nat),
            v ⊆ l.foldl (fun v y => dfsF E f y v) v := by
          intro l
          induction l with
          | nil => intro v; simp
          | cons y l ihl =>
              intro v
              simp only [List.foldl_cons]
              exact (ih y v).trans (ihl _)
        exact (List.subset_cons_self x vis).trans (hfold _ _)

theorem dfsF_foldl_subset (E : List (Nat × Nat)) (f : Nat) :
    ∀ (l : List Nat) (v : List Nat),
      v ⊆ l.foldl (fun v y => dfsF E f y v) v := by
  intro l
  induction l with
  | nil => intro v; simp
  | cons y l ihl =>
      intro v
      simp only [List.foldl_cons]
      exact (dfsF_subset E f y v).trans (ihl _)

theorem dfsF_mem (E : List (Nat × Nat)) :
    ∀ (fuel x : Nat) (vis : List Nat) (a : Nat),
      a ∈ dfsF E fuel x vis → a ∈ vis ∨ Reach E x a := by
  intro fuel
  induction fuel with
  | zero => intro x vis a h; exact Or.inl (by simpa [dfsF] using h)
  | succ f ih =>
      intro x vis a h
      unfold dfsF at h
      by_cases hx : x ∈ vis
      · simp only [hx, if_true] at h; exact Or.inl h
      · simp only [hx, if_false] at h
        have hfold : ∀ (l : List Nat) (v : List Nat) (a : Nat),
            a ∈ l.foldl (fun v y => dfsF E f y v) v →
              a ∈ v ∨ ∃ y ∈ l, Reach E y a := by
          intro l
          induction l with
          | nil => intro v a h; exact Or.inl (by simpa using h)
          | cons y l ihl =>
              intro v a h
              simp only [List.foldl_cons] at h
              rcases ihl _ a h with h' | ⟨z, hz, hr⟩
              · rcases ih y v a h' with h'' | hr
                · exact Or.inl h''
                · exact Or.inr ⟨y, by simp, hr⟩
              · exact Or.inr ⟨z, by simp [hz], hr⟩
        rcases hfold _ _ a h with h' | ⟨y, hy, hr⟩
        · rcases List.mem_cons.mp h' with rfl | h''
          · exact Or.inr Relation.ReflTransGen.refl
          · exact Or.inl h''
        · refine Or.inr ?_
          have hadj : Adj E x y := (mem_adjList_iff E x y).mp hy
          exact Relation.ReflTransGen.head hadj hr

theorem dfsF_nodup (E : List (Nat × Nat)) :
    ∀ (fuel x : Nat) (vis : List Nat), vis.Nodup → (dfsF E fuel x vis).Nodup := by
  intro fuel
  induction fuel with
  | zero => intro x vis h; simpa [dfsF] using h
  | succ f ih =>
      intro x vis hvis
      unfold dfsF
      by_cases hx : x ∈ vis
      · simpa [hx] using hvis
      · simp only [hx, if_false]
        have hfold : ∀ (l : List Nat) (v : List Nat),
            v.Nodup → (l.foldl (fun v y => dfsF E f y v) v).Nodup := by
          intro l
          induction l with
          | nil => intro v h; simpa using h
          | cons y l ihl =>
              intro v h
              simp only [List.foldl_cons]
              exact ihl _ (ih y v h)
        exact hfold _ _ (List.nodup_cons.mpr ⟨hx, hvis⟩)

theorem dfsF_key (E : List (Nat × Nat)) :
    ∀ (fuel x : Nat) (vis : List Nat),
      x ∈ nodeList E →
      ((nodeList E).toFinset \ vis.toFinset).card < fuel →
      x ∈ dfsF E fuel x vis ∧
        ∀ z ∈ dfsF E fuel x vis, z ∉ vis →
          ∀ y, Adj E z y → y ∈ dfsF E fuel x vis := by
  intro fuel
  induction fuel with
  | zero => intro x vis _ hcard; omega
  | succ f ih =>
      intro x vis hxnode hcard
      unfold dfsF
      by_cases hx : x ∈ vis
      · simp only [hx, if_true]
        exact ⟨trivial, fun z hz hzn => absurd hz hzn⟩
      · simp only [hx, if_false]
        -- The accumulator only grows along the fold, so the fuel bound is
        -- maintained at every child call.
        have hfold : ∀ (l : List Nat) (v : List Nat),
            (∀ y ∈ l, y ∈ nodeList E) →
            ((nodeList E).toFinset \ v.toFinset).card < f →
            v ⊆ l.foldl (fun v y => dfsF E f y v) v ∧
              (∀ y ∈ l, y ∈ l.foldl (fun v y => dfsF E f y v) v) ∧
              (∀ z ∈ l.foldl (fun v y => dfsF E f y v) v, z ∉ v →
                ∀ y, Adj E z y → y ∈ l.foldl (fun v y => dfsF E f y v) v) := by
          intro l
          induction l with
          | nil =>
              intro v _ _
              refine ⟨by simp, by simp, ?_⟩
              intro z hz hzn
              exact absurd (by simpa using hz) hzn
          | cons y l ihl =>
              intro v hnodes hcv
              have hynode : y ∈ nodeList E := hnodes y (by simp)
              obtain ⟨hyin, hyclose⟩ := ih y v hynode hcv
              have hsub : v ⊆ dfsF E f y v := dfsF_subset E f y v
              have hcv' : ((nodeList E).toFinset \ (dfsF E f y v).toFinset).card < f := by
                have hmono : (nodeList E).toFinset \ (dfsF E f y v).toFinset ⊆
                    (nodeList E).toFinset \ v.toFinset := by
                  intro a ha
                  simp only [Finset.mem_sdiff, List.mem_toFinset] at ha ⊢
                  exact ⟨ha.1, fun hav => ha.2 (hsub hav)⟩
                exact lt_of_le_of_lt (Finset.card_le_card hmono) hcv
              obtain ⟨hsub', hmem', hclose'⟩ :=
                ihl (dfsF E f y v) (fun z hz => hnodes z (by simp [hz])) hcv'
              simp only [List.foldl_cons]
              refine ⟨hsub.trans hsub', ?_, ?_⟩
              · intro z hz
                rcases List.mem_cons.mp hz with rfl | hz'
                · exact hsub' hyin
                · exact hmem' z hz'
              · intro z hz hznv w hadj
                by_cases hz' : z ∈ dfsF E f y v
                · exact hsub' (hyclose z hz' hznv w hadj)
                · exact hclose' z hz hz' w hadj
        have hchild : ∀ y ∈ adjList E x, y ∈ nodeList E := by
          intro y hy
          exact adj_mem_nodeList_right E ((mem_adjList_iff E x y).mp hy)
        have hcx : ((nodeList E).toFinset \ (x :: vis).toFinset).card < f := by
          have hxmem : x ∈ (nodeList E).toFinset \ vis.toFinset := by
            simp only [Finset.mem_sdiff, List.mem_toFinset]
            exact ⟨hxnode, hx⟩
          have hpos : 0 < ((nodeList E).toFinset \ vis.toFinset).card :=
            Finset.card_pos.mpr ⟨x, hxmem⟩
          have : (nodeList E).toFinset \ (x :: vis).toFinset =
              ((nodeList E).toFinset \ vis.toFinset).erase x := by
            rw [List.toFinset_cons, Finset.sdiff_insert]
          rw [this, Finset.card_erase_of_mem hxmem]
          omega
        obtain ⟨hsub, hmem, hclose⟩ := hfold (adjList E x) (x :: vis) hchild hcx
        refine ⟨hsub (by simp), ?_⟩
        intro z hz hznv w hadj
        by_cases hzx : z = x
        · subst hzx
          exact hmem w ((mem_adjList_iff E z w).mpr hadj)
        · exact hclose z hz (by simp [hzx, hznv]) w hadj

theorem dfsVisited_nodup (E : List (Nat × Nat)) (s : Nat) :
    (dfsVisited E s).Nodup :=
  dfsF_nodup E _ s [] List.nodup_nil

theorem dfsVisited_sound (E : List (Nat × Nat)) (s : Nat) :
    ∀ b ∈ dfsVisited E s, Reach E s b := by
  intro b hb
  rcases dfsF_mem E _ s [] b hb with h | h
  · simp at h
  · exact h

theorem dfsVisited_closure (E : List (Nat × Nat)) {s : Nat}
    (hs : s ∈ nodeList E) :
    s ∈ dfsVisited E s ∧
      ∀ z ∈ dfsVisited E s, ∀ y, Adj E z y → y ∈ dfsVisited E s := by
  have hcard : ((nodeList E).toFinset \ ([] : List Nat).toFinset).card <
      (nodeList E).length + 1 := by
    simp only [List.toFinset_nil, Finset.sdiff_empty]
    exact lt_of_le_of_lt (List.toFinset_card_le _) (Nat.lt_succ_self _)
  obtain ⟨hin, hclose⟩ := dfsF_key E ((nodeList E).length + 1) s [] hs hcard
  exact ⟨hin, fun z hz y hadj => hclose z hz (by simp) y hadj⟩

theorem dfsVisited_complete (E : List (Nat × Nat)) {s : Nat}
    (hs : s ∈ nodeList E) : ∀ b, Reach E s b → b ∈ dfsVisited E s := by
  intro b hb
  obtain ⟨hin, hclose⟩ := dfsVisited_closure E hs
  induction hb with
  | refl => exact hin
  | tail _ hadj ihb => exact hclose _ ihb _ hadj

/-- The set of nodes visited by the DFS from a node `s` is exactly the
connected component of `s`. -/
theorem dfsVisited_iff (E : List (Nat × Nat)) {s : Nat}
    (hs : s ∈ nodeList E) (b : Nat) :
    b ∈ dfsVisited E s ↔ Reach E s b :=
  ⟨dfsVisited_sound E s b, dfsVisited_complete E hs b⟩

/-! ## The partition loop of `determine_aggregates`

```
while len(atom_indices_list) > 0:
    aggregate = []
    aggregate_atoms = nx.dfs_postorder_nodes(graph, atom_indices_list[0])
    for atom in aggregate_atoms:
        aggregate.append(atom)
        atom_indices_list.remove(atom)
    aggregates.append(aggregate)
```
-/

/-- Sequentially remove the elements of `as` from `l`, as the repeated
`atom_indices_list.remove(atom)` calls do.  Python's `list.remove` deletes
the first occurrence and raises `ValueError` when the value is absent. -/
def removeList (l : List Nat) : List Nat → Except PyErr (List Nat)
  | [] => .ok l
  | a :: as => if a ∈ l then removeList (l.erase a) as else .error .valueError

theorem removeList_perm :
    ∀ (as l l' : List Nat), removeList l as = .ok l' → l.Perm (as ++ l') := by
  intro as
  induction as with
  | nil =>
      intro l l' h
      simp only [removeList, Except.ok.injEq] at h
      simp [h]
  | cons a as iha =>
      intro l l' h
      simp only [removeList] at h
      by_cases ha : a ∈ l
      · simp only [ha, if_true] at h
        have h1 : l.Perm (a :: l.erase a) := List.perm_cons_erase ha
        have h2 : (l.erase a).Perm (as ++ l') := iha _ _ h
        exact h1.trans (h2.cons a)
      · simp [ha] at h

theorem removeList_success :
    ∀ (as l : List Nat), as.Nodup → (∀ a ∈ as, a ∈ l) →
      ∃ l', removeList l as = .ok l' := by
  intro as
  induction as with
  | nil => intro l _ _; exact ⟨l, rfl⟩
  | cons a as iha =>
      intro l hnd hsub
      have ha : a ∈ l := hsub a (by simp)
      have hsub' : ∀ b ∈ as, b ∈ l.erase a := by
        intro b hb
        have hba : b ≠ a := by
          rintro rfl
          exact (List.nodup_cons.mp hnd).1 hb
        exact (List.mem_erase_of_ne hba).mpr (hsub b (by simp [hb]))
      obtain ⟨l', hl'⟩ := iha (l.erase a) (List.nodup_cons.mp hnd).2 hsub'
      exact ⟨l', by simp [removeList, ha, hl']⟩

/-- Whether an index is a node of the graph (was an endpoint of some added
edge): Boolean form used by the embedding of `dfs_postorder_nodes`. -/
def isNodeB (E : List (Nat × Nat)) (x : Nat) : Bool :=
  decide (x ∈ nodeList E)

/-- Embedding of `nx.dfs_postorder_nodes(graph, source)`.  When the source
was never added to the graph (a particle with no neighbors), NetworkX
raises `KeyError` when the generator is first iterated. -/
def dfs_postorder_nodes (E : List (Nat × Nat)) (s : Nat) :
    Except PyErr (List Nat) :=
  if isNodeB E s then .ok (dfsVisited E s) else .error .keyError

/-- The `while` loop that partitions the index list into aggregates.  The
loop is embedded with fuel; `determine_aggregates` supplies fuel
`length + 1`, which is never exhausted (`partitionLoop_no_fuelOut`). -/
def partitionLoop (E : List (Nat × Nat)) : Nat → List Nat →
    Except PyErr (List (List Nat))
  | _, [] => .ok []
  | 0, _ :: _ => .error .fuelOut
  | fuel + 1, s :: rest =>
      match dfs_postorder_nodes E s with
      | .error e => .error e
      | .ok aggregate =>
          match removeList (s :: rest) aggregate with
          | .error e => .error e
          | .ok l' => (partitionLoop E fuel l').map (fun aggs => aggregate :: aggs)

/-- The edge relation never leaves `l`: every index reachable from a member
of `l` is itself in `l`.  This is the loop invariant of the partition loop;
it holds initially because all neighbor-list entries are selected indices. -/
def EdgeClosed (E : List (Nat × Nat)) (l : List Nat) : Prop :=
  ∀ a ∈ l, ∀ b, Reach E a b → b ∈ l

/-- One iteration of the partition loop: the DFS component of the head is
removed wholesale, preserving the invariant. -/
theorem partition_step (E : List (Nat × Nat)) {s : Nat} {rest : List Nat}
    (hnd : (s :: rest).Nodup) (hcl : EdgeClosed E (s :: rest))
    (hs : s ∈ nodeList E) :
    ∃ l', removeList (s :: rest) (dfsVisited E s) = .ok l' ∧
      (s :: rest).Perm (dfsVisited E s ++ l') ∧ l'.Nodup ∧ EdgeClosed E l' := by
  have hcomp_sub : ∀ a ∈ dfsVisited E s, a ∈ s :: rest := by
    intro a ha
    exact hcl s (by simp) a (dfsVisited_sound E s a ha)
  obtain ⟨l', hl'⟩ :=
    removeList_success (dfsVisited E s) (s :: rest) (dfsVisited_nodup E s) hcomp_sub
  have hperm : (s :: rest).Perm (dfsVisited E s ++ l') := removeList_perm _ _ _ hl'
  have hnd' : (dfsVisited E s ++ l').Nodup := hperm.nodup_iff.mp hnd
  have hl'nd : l'.Nodup := (List.nodup_append.mp hnd').2.1
  have hdisj : ∀ a ∈ l', a ∉ dfsVisited E s := by
    intro a ha hav
    exact (List.nodup_append.mp hnd').2.2 hav ha
  refine ⟨l', hl', hperm, hl'nd, ?_⟩
  intro a ha b hb
  have hal : a ∈ s :: rest := hperm.mem_iff.mpr (by simp [ha])
  have hbl : b ∈ s :: rest := hcl a hal b hb
  have hbl' : b ∈ dfsVisited E s ∨ b ∈ l' := by
    simpa using hperm.mem_iff.mp hbl
  rcases hbl' with hbv | hbv
  · -- `b` is in the removed component, so `a` would be too — contradiction.
    have hsb : Reach E s b := dfsVisited_sound E s b hbv
    have hsa : Reach E s a := hsb.trans (reach_symm E hb)
    have : a ∈ dfsVisited E s := dfsVisited_complete E hs a hsa
    exact absurd this (hdisj a ha)
  · exact hbv

theorem partitionLoop_cons_ok (E : List (Nat × Nat)) {s : Nat}
    {rest l' : List Nat} {f : Nat} (hs : isNodeB E s = true)
    (hl' : removeList (s :: rest) (dfsVisited E s) = .ok l') :
    partitionLoop E (f + 1) (s :: rest) =
      (partitionLoop E f l').map (fun aggs => dfsVisited E s :: aggs) := by
  simp [partitionLoop, dfs_postorder_nodes, hs, hl']

theorem partitionLoop_cons_keyError (E : List (Nat × Nat)) {s : Nat}
    {rest : List Nat} {f : Nat} (hs : isNodeB E s = false) :
    partitionLoop E (f + 1) (s :: rest) = .error .keyError := by
  simp [partitionLoop, dfs_postorder_nodes, hs]

theorem except_map_eq_error {α β : Type} {f : α → β} {x : Except PyErr α}
    {e : PyErr} (h : x.map f = .error e) : x = .error e := by
  cases x with
  | error e' => simpa [Except.map] using h
  | ok a => simp [Except.map] at h

/-- The partition loop never raises `ValueError`: whatever the DFS yields is
still in the unassigned list when it is removed. -/
theorem partitionLoop_no_valueError (E : List (Nat × Nat)) :
    ∀ (fuel : Nat) (l : List Nat), l.Nodup → EdgeClosed E l →
      partitionLoop E fuel l ≠ .error .valueError := by
  intro fuel
  induction fuel with
  | zero =>
      intro l _ _
      cases l with
      | nil => simp [partitionLoop]
      | cons s rest => simp [partitionLoop]
  | succ f ih =>
      intro l hnd hcl
      cases l with
      | nil => simp [partitionLoop]
      | cons s rest =>
          by_cases hs : isNodeB E s
          · obtain ⟨l', hl', _, hl'nd, hl'cl⟩ :=
              partition_step E hnd hcl (by simpa [isNodeB] using hs)
            rw [partitionLoop_cons_ok E hs hl']
            intro hcontr
            exact ih l' hl'nd hl'cl (except_map_eq_error hcontr)
          · rw [partitionLoop_cons_keyError E (by simpa using hs)]
            simp

/-- Under the loop invariant, a successful run of the partition loop returns
aggregates whose concatenation is a permutation of the unassigned list. -/
theorem partitionLoop_perm (E : List (Nat × Nat)) :
    ∀ (fuel : Nat) (l : List Nat) (aggs : List (List Nat)),
      l.Nodup → EdgeClosed E l →
      partitionLoop E fuel l = .ok aggs → aggs.flatten.Perm l := by
  intro fuel
  induction fuel with
  | zero =>
      intro l aggs _ _ h
      cases l with
      | nil =>
          simp only [partitionLoop, Except.ok.injEq] at h
          simp [← h]
      | cons s rest => simp [partitionLoop] at h
  | succ f ih =>
      intro l aggs hnd hcl h
      cases l with
      | nil =>
          simp only [partitionLoop, Except.ok.injEq] at h
          simp [← h]
      | cons s rest =>
          by_cases hs : isNodeB E s
          · obtain ⟨l', hl', hperm, hl'nd, hl'cl⟩ :=
              partition_step E hnd hcl (by simpa [isNodeB] using hs)
            rw [partitionLoop_cons_ok E hs hl'] at h
            cases hloop : partitionLoop E f l' with
            | error e => rw [hloop] at h; simp [Except.map] at h
            | ok aggs' =>
                rw [hloop] at h
                simp only [Except.map, Except.ok.injEq] at h
                have hjoin : aggs'.flatten.Perm l' := ih l' aggs' hl'nd hl'cl hloop
                rw [← h]
                have h1 : (dfsVisited E s :: aggs').flatten =
                    dfsVisited E s ++ aggs'.flatten := by simp
                rw [h1]
                exact (hjoin.append_left _).trans hperm.symm
          · rw [partitionLoop_cons_keyError E (by simpa using hs)] at h
            simp at h

/-- With fuel one more than the list length, the fuel never runs out: every
iteration removes at least the seed from the unassigned list. -/
theorem partitionLoop_no_fuelOut (E : List (Nat × Nat)) :
    ∀ (fuel : Nat) (l : List Nat), l.Nodup → EdgeClosed E l →
      l.length < fuel → partitionLoop E fuel l ≠ .error .fuelOut := by
  intro fuel
  induction fuel with
  | zero => intro l _ _ hlen; omega
  | succ f ih =>
      intro l hnd hcl hlen
      cases l with
      | nil => simp [partitionLoop]
      | cons s rest =>
          by_cases hs : isNodeB E s
          · have hsnode : s ∈ nodeList E := by simpa [isNodeB] using hs
            obtain ⟨l', hl', hperm, hl'nd, hl'cl⟩ :=
              partition_step E hnd hcl hsnode
            rw [partitionLoop_cons_ok E hs hl']
            have hsin : s ∈ dfsVisited E s := (dfsVisited_closure E hsnode).1
            have hlen' : l'.length < f := by
              have hle := hperm.length_eq
              simp only [List.length_append, List.length_cons] at hle hlen
              have hpos : 0 < (dfsVisited E s).length := List.length_pos_of_mem hsin
              omega
            intro hcontr
            exact ih l' hl'nd hl'cl hlen' (except_map_eq_error hcontr)
          · rw [partitionLoop_cons_keyError E (by simpa using hs)]
            simp

/-! ## The neighbor-list engine (spec-modelled) and `determine_aggregates` -/

/-- A 3-D point with rational coordinates (the analysis code's positions). -/
abbrev QVec : Type := ℚ × ℚ × ℚ

/-- Nearest integer to a rational, computed as the floor of `x + 1/2`;
written with an explicit floor division so that it evaluates inside the
kernel. -/
def ratRound (x : ℚ) : ℤ :=
  Int.fdiv (x + 1 / 2).num ((x + 1 / 2).den : ℤ)

/-- Minimum-image displacement along one orthorhombic box edge of length
`b`: the representative of `d` closest to zero modulo `b`. -/
def minImageDelta (b d : ℚ) : ℚ := d - b * (ratRound (d / b) : ℤ)

/-- Squared minimum-image distance in an orthorhombic box. -/
def minImageDistSq (box : QVec) (p q : QVec) : ℚ :=
  (minImageDelta box.1 (p.1 - q.1)) ^ 2 +
    (minImageDelta box.2.1 (p.2.1 - q.2.1)) ^ 2 +
    (minImageDelta box.2.2 (p.2.2 - q.2.2)) ^ 2

/-- Inclusive neighbor test: distance ≤ cutoff.  Since the minimum-image
distance is nonnegative, `dist ≤ r` is equivalent to
`0 ≤ r ∧ dist² ≤ r²`, which avoids square roots and keeps the test
decidable over `ℚ`. -/
def isNeighborPair (box : QVec) (r : ℚ) (p q : QVec) : Bool :=
  decide (0 ≤ r ∧ minImageDistSq box p q ≤ r ^ 2)

/-- Modelled from the spec: `calculate_neighborlists_from_distances`
(imported from the module `aggregation`, which is not part of the listing).
Per §4.1 it maps every given particle index to the indices of all other
particles whose minimum-image distance does not exceed the cutoff — self
excluded, comparison inclusive.  The box is taken orthorhombic (the spec
leaves triclinic handling open); positions are supplied as a function from
index to coordinates rather than as three parallel arrays. -/
def calculate_neighborlists_from_distances (indices : List Nat)
    (pos : Nat → QVec) (box : QVec) (r : ℚ) : List (Nat × List Nat) :=
  indices.map (fun i =>
    (i, indices.filter (fun j => decide (j ≠ i) && isNeighborPair box r (pos i) (pos j))))

/-- The edges added to the NetworkX graph: one `add_edge(atom_index,
neighbor)` call per entry of every neighbor list. -/
def edgesOf (nls : List (Nat × List Nat)) : List (Nat × Nat) :=
  nls.flatMap (fun kv => kv.2.map (fun j => (kv.1, j)))

theorem edgesOf_neighborlists_mem {indices : List Nat} {pos : Nat → QVec}
    {box : QVec} {r : ℚ} {e : Nat × Nat}
    (he : e ∈ edgesOf (calculate_neighborlists_from_distances indices pos box r)) :
    e.1 ∈ indices ∧ e.2 ∈ indices := by
  simp only [edgesOf, calculate_neighborlists_from_distances, List.mem_flatMap,
    List.mem_map] at he
  obtain ⟨kv, ⟨i, hi, hkv⟩, j, hj, rfl⟩ := he
  subst hkv
  simp only at hj ⊢
  exact ⟨hi, (List.mem_filter.mp hj).1⟩

/-- The per-frame body of `determine_aggregates`: build the neighbor lists,
add their pairs as graph edges, then partition the index list into
aggregates with the DFS loop. -/
def frameAggregates (atoms : List Nat) (pos : Nat → QVec) (box : QVec)
    (r : ℚ) : Except PyErr (List (List Nat)) :=
  let E := edgesOf (calculate_neighborlists_from_distances atoms pos box r)
  partitionLoop E (atoms.length + 1) atoms

theorem frameAggregates_edgeClosed (atoms : List Nat) (pos : Nat → QVec)
    (box : QVec) (r : ℚ) :
    EdgeClosed (edgesOf (calculate_neighborlists_from_distances atoms pos box r))
      atoms := by
  intro a ha b hb
  induction hb with
  | refl => exact ha
  | tail _ hadj ihb =>
      rcases hadj with h | h
      · exact (edgesOf_neighborlists_mem h).2
      · exact (edgesOf_neighborlists_mem h).1

/-- An MDAnalysis universe, as `determine_aggregates` consumes one: the
atom indices (`u.atoms.indices`), the result of a selection query
(`u.select_atoms`, whose language is external to the listing), the box
(`u.dimensions`, orthorhombic edges), and the trajectory: for each frame,
the textual form of its timestep (`str(ts)`) and the positions. -/
structure Universe where
  allAtoms : List Nat
  selectAtoms : String → List Nat
  dimensions : QVec
  frames : List (String × (Nat → QVec))

/-- The atoms the analysis works on: the selection when one is given,
otherwise all atoms. -/
def atomsOf (u : Universe) (sel : Option String) : List Nat :=
  match sel with
  | some s => u.selectAtoms s
  | none => u.allAtoms

/-- Insertion into a Python `dict` rendered as an association list: an
existing key keeps its position and gets the new value, a fresh key is
appended at the end. -/
def dictInsert {α : Type} (d : List (String × α)) (k : String) (v : α) :
    List (String × α) :=
  if d.any (fun kv => kv.1 == k) then
    d.map (fun kv => if kv.1 == k then (k, v) else kv)
  else d ++ [(k, v)]

/-- Model of Python `str()` on a float that holds an integral value (the
only case the concrete runs below exercise): `str(-1.0) = "-1.0"`. -/
def floatStr (q : ℚ) : String :=
  if q.den = 1 then toString q.num ++ ".0" else toString q

/-- The description string built by `determine_aggregates`. -/
def describeOf (r : ℚ) (sel : Option String) : String :=
  "Lists of aggregates for a given timestep. Cutoff radius r_neigh =" ++
    floatStr r ++
    (match sel with
     | some s => " Selection: " ++ s
     | none => "")

/-- The value `determine_aggregates` returns: a dictionary with the two
keys `description` and `data`. -/
structure AggResult where
  description : String
  data : List (String × List (List Nat))
deriving DecidableEq, Repr

/-- The frame loop: run the per-frame partition for every frame in
trajectory order, recording each frame's aggregates under `str(ts)`. -/
def collectFrames (atoms : List Nat) (box : QVec) (r : ℚ) :
    List (String × List (List Nat)) → List (String × (Nat → QVec)) →
      Except PyErr (List (String × List (List Nat)))
  | acc, [] => .ok acc
  | acc, (name, posFn) :: rest =>
      match frameAggregates atoms posFn box r with
      | .error e => .error e
      | .ok aggs => collectFrames atoms box r (dictInsert acc name aggs) rest

/-- Embedding of `determine_aggregates(u, r_neigh, selection)`. -/
def determine_aggregates (u : Universe) (r_neigh : ℚ)
    (selection : Option String) : Except PyErr AggResult :=
  let atoms := atomsOf u selection
  match collectFrames atoms u.dimensions r_neigh [] u.frames with
  | .error e => .error e
  | .ok data => .ok ⟨describeOf r_neigh selection, data⟩

/-! ## JSON shape and the aggregate-detector CLI -/

/-- JSON values, with objects as ordered key/value lists — `json.dumps`
keeps the dict insertion order. -/
inductive Json where
  | str : String → Json
  | num : ℚ → Json
  | arr : List Json → Json
  | obj : List (String × Json) → Json

/-- The JSON document `json.dumps(result)` prints: the returned dict with
its two keys, the frame dict nested under `data`, aggregates as arrays of
atom indices. -/
def AggResult.toJson (res : AggResult) : Json :=
  .obj [("description", .str res.description),
        ("data", .obj (res.data.map (fun kv =>
          (kv.1, Json.arr (kv.2.map (fun agg =>
            Json.arr (agg.map (fun i => Json.num (i : ℚ)))))))))]

/-- Digit-string to number; `none` on any non-digit character. -/
def digitsToNat? (l : List Char) : Option Nat :=
  l.foldl (fun acc c =>
    acc.bind (fun n => if c.isDigit then some (10 * n + (c.toNat - 48)) else none))
    (some 0)

/-- Unsigned decimal literal: digits with an optional fractional part. -/
def parseUnsignedFloat? (t : String) : Option ℚ :=
  match t.splitOn "." with
  | [ip] =>
      if ip.isEmpty then none
      else (digitsToNat? ip.toList).map (fun n => (n : ℚ))
  | [ip, fp] =>
      if ip.isEmpty && fp.isEmpty then none
      else
        match digitsToNat? ip.toList, digitsToNat? fp.toList with
        | some n, some f => some ((n : ℚ) + (f : ℚ) / ((10 : ℚ) ^ fp.length))
        | _, _ => none
  | _ => none

/-- Model of Python `float()` on plain decimal literals with an optional
sign — the forms the cutoff argument takes in the runs considered here
(exponent/inf/nan forms are not modelled). -/
def parseFloat? (s : String) : Option ℚ :=
  if s.startsWith "-" then (parseUnsignedFloat? (s.drop 1)).map (fun q => -q)
  else if s.startsWith "+" then parseUnsignedFloat? (s.drop 1)
  else parseUnsignedFloat? s

/-- The parsed command line of `calculate_aggregation.py`: one or more
positional input files, `--r_neigh` (default 1.2) and `--selection`. -/
structure AggArgs where
  input : List String
  r_neigh : ℚ
  selection : Option String
deriving DecidableEq, Repr

/-- Left-to-right scan of the argument vector, modelling the `argparse`
configuration of the aggregate detector: `--r_neigh` converts its value
with `float` (a conversion failure is a usage error), `--selection` takes
a string, everything else is a positional input, and at least one input is
required.  Note the parser declares no positivity constraint for
`--r_neigh`. -/
def parseAggArgsAux : List String → List String → ℚ → Option String →
    Except String AggArgs
  | [], inputs, r, sel =>
      if inputs.isEmpty then .error "the following arguments are required: INPUT"
      else .ok ⟨inputs, r, sel⟩
  | "--r_neigh" :: rest, inputs, _, sel =>
      match rest with
      | [] => .error "argument --r_neigh: expected one argument"
      | v :: rest' =>
          match parseFloat? v with
          | some q => parseAggArgsAux rest' inputs q sel
          | none => .error ("argument --r_neigh: invalid float value: " ++ v)
  | "--selection" :: rest, inputs, r, _ =>
      match rest with
      | [] => .error "argument --selection: expected one argument"
      | v :: rest' => parseAggArgsAux rest' inputs r (some v)
  | tok :: rest, inputs, r, sel => parseAggArgsAux rest (inputs ++ [tok]) r sel

/-- Parse an argument vector with the defaults of the aggregate-detector
CLI (`--r_neigh` defaults to 1.2, no selection). -/
def parseAggArgs (argv : List String) : Except String AggArgs :=
  parseAggArgsAux argv [] (6 / 5 : ℚ) none

/-- What an invocation of the CLI process does: exit with a usage error at
argument-parsing time, die on a propagated Python exception, or print one
JSON document to standard output. -/
inductive CliOutcome where
  | usageError : String → CliOutcome
  | fatal : PyErr → CliOutcome
  | output : Json → CliOutcome

/-- The `__main__` block of `calculate_aggregation.py`: parse the argument
vector, load the universe (the loaded universe is a parameter here), run
`determine_aggregates`, print the JSON.  No validation happens between
parsing and analysis. -/
def aggregation_cli (argv : List String) (u : Universe) : CliOutcome :=
  match parseAggArgs argv with
  | .error msg => .usageError msg
  | .ok args =>
      match determine_aggregates u args.r_neigh args.selection with
      | .error e => .fatal e
      | .ok res => .output res.toJson

/-! ## Supporting lemmas about `determine_aggregates` -/

theorem frameAggregates_perm {atoms : List Nat} {posFn : Nat → QVec}
    {box : QVec} {r : ℚ} {aggs : List (List Nat)} (hnd : atoms.Nodup)
    (h : frameAggregates atoms posFn box r = .ok aggs) :
    aggs.flatten.Perm atoms :=
  partitionLoop_perm _ _ atoms aggs hnd
    (frameAggregates_edgeClosed atoms posFn box r) h

theorem frameAggregates_no_valueError (atoms : List Nat) (posFn : Nat → QVec)
    (box : QVec) (r : ℚ) (hnd : atoms.Nodup) :
    frameAggregates atoms posFn box r ≠ .error .valueError :=
  partitionLoop_no_valueError _ _ atoms hnd
    (frameAggregates_edgeClosed atoms posFn box r)

theorem mem_dictInsert {α : Type} {d : List (String × α)} {k : String}
    {v : α} {kv : String × α} (h : kv ∈ dictInsert d k v) :
    kv = (k, v) ∨ kv ∈ d := by
  unfold dictInsert at h
  split at h
  · simp only [List.mem_map] at h
    obtain ⟨kv', hkv', hval⟩ := h
    by_cases hk : kv'.1 == k
    · rw [if_pos hk] at hval
      exact Or.inl hval.symm
    · rw [if_neg hk] at hval
      exact Or.inr (hval ▸ hkv')
  · rcases List.mem_append.mp h with h' | h'
    · exact Or.inr h'
    · exact Or.inl (by simpa using h')

theorem dictInsert_fresh {α : Type} {d : List (String × α)} {k : String}
    {v : α} (h : ∀ kv ∈ d, kv.1 ≠ k) : dictInsert d k v = d ++ [(k, v)] := by
  unfold dictInsert
  have hany : d.any (fun kv => kv.1 == k) = false := by
    rw [List.any_eq_false]
    intro kv hkv
    simpa using h kv hkv
  simp [hany]

theorem collectFrames_values {atoms : List Nat} {box : QVec} {r : ℚ}
    (P : List (List Nat) → Prop)
    (hP : ∀ posFn aggs, frameAggregates atoms posFn box r = .ok aggs → P aggs) :
    ∀ (fs : List (String × (Nat → QVec))) (acc d : List (String × List (List Nat))),
      (∀ kv ∈ acc, P kv.2) → collectFrames atoms box r acc fs = .ok d →
        ∀ kv ∈ d, P kv.2 := by
  intro fs
  induction fs with
  | nil =>
      intro acc d hacc h
      simp only [collectFrames, Except.ok.injEq] at h
      exact h ▸ hacc
  | cons frame rest ihf =>
      intro acc d hacc h
      obtain ⟨name, posFn⟩ := frame
      simp only [collectFrames] at h
      cases hfr : frameAggregates atoms posFn box r with
      | error e => rw [hfr] at h; simp at h
      | ok aggs =>
          rw [hfr] at h
          refine ihf (dictInsert acc name aggs) d ?_ h
          intro kv hkv
          rcases mem_dictInsert hkv with rfl | hkv'
          · exact hP posFn aggs hfr
          · exact hacc kv hkv'

theorem collectFrames_no_valueError (atoms : List Nat) (box : QVec) (r : ℚ)
    (hnd : atoms.Nodup) :
    ∀ (fs : List (String × (Nat → QVec))) (acc : List (String × List (List Nat))),
      collectFrames atoms box r acc fs ≠ .error .valueError := by
  intro fs
  induction fs with
  | nil => intro acc; simp [collectFrames]
  | cons frame rest ihf =>
      intro acc
      obtain ⟨name, posFn⟩ := frame
      simp only [collectFrames]
      cases hfr : frameAggregates atoms posFn box r with
      | error e =>
          intro hcontr
          have : e = PyErr.valueError := by injection hcontr
          exact frameAggregates_no_valueError atoms posFn box r hnd (this ▸ hfr)
      | ok aggs => exact ihf (dictInsert acc name aggs)

theorem collectFrames_keys (atoms : List Nat) (box : QVec) (r : ℚ) :
    ∀ (fs : List (String × (Nat → QVec))) (acc d : List (String × List (List Nat))),
      collectFrames atoms box r acc fs = .ok d →
      (acc.map Prod.fst ++ fs.map Prod.fst).Nodup →
      d.map Prod.fst = acc.map Prod.fst ++ fs.map Prod.fst := by
  intro fs
  induction fs with
  | nil =>
      intro acc d h _
      simp only [collectFrames, Except.ok.injEq] at h
      simp [← h]
  | cons frame rest ihf =>
      intro acc d h hnd
      obtain ⟨name, posFn⟩ := frame
      simp only [collectFrames] at h
      cases hfr : frameAggregates atoms posFn box r with
      | error e => rw [hfr] at h; simp at h
      | ok aggs =>
          rw [hfr] at h
          have h' : collectFrames atoms box r (dictInsert acc name aggs) rest =
              .ok d := h
          have hfresh : ∀ kv ∈ acc, kv.1 ≠ name := by
            intro kv hkv hcontr
            have h1 : kv.1 ∈ acc.map Prod.fst := List.mem_map_of_mem _ hkv
            have h2 : (List.map Prod.fst acc).Disjoint
                (name :: rest.map Prod.fst) :=
              List.disjoint_of_nodup_append (by simpa using hnd)
            exact h2 h1 (by simp [hcontr])
          rw [dictInsert_fresh hfresh] at h'
          have := ihf (acc ++ [(name, aggs)]) d h'
            (by simpa [List.append_assoc] using hnd)
          simpa [List.append_assoc] using this

theorem determine_aggregates_ok {u : Universe} {r : ℚ} {sel : Option String}
    {res : AggResult} (h : determine_aggregates u r sel = .ok res) :
    collectFrames (atomsOf u sel) u.dimensions r [] u.frames = .ok res.data ∧
      res.description = describeOf r sel := by
  have h' : (match collectFrames (atomsOf u sel) u.dimensions r [] u.frames with
      | Except.error e => (Except.error e : Except PyErr AggResult)
      | Except.ok data => Except.ok ⟨describeOf r sel, data⟩) = Except.ok res := h
  cases hc : collectFrames (atomsOf u sel) u.dimensions r [] u.frames with
  | error e => rw [hc] at h'; simp at h'
  | ok data =>
      rw [hc] at h'
      simp only [Except.ok.injEq] at h'
      rw [← h']
      exact ⟨rfl, rfl⟩

theorem determine_aggregates_error {u : Universe} {r : ℚ} {sel : Option String}
    {e : PyErr} (h : determine_aggregates u r sel = .error e) :
    collectFrames (atomsOf u sel) u.dimensions r [] u.frames = .error e := by
  have h' : (match collectFrames (atomsOf u sel) u.dimensions r [] u.frames with
      | Except.error e => (Except.error e : Except PyErr AggResult)
      | Except.ok data => Except.ok ⟨describeOf r sel, data⟩) = Except.error e := h
  cases hc : collectFrames (atomsOf u sel) u.dimensions r [] u.frames with
  | error e' =>
      rw [hc] at h'
      simp only [Except.error.injEq] at h'
      rw [h']
  | ok data => rw [hc] at h'; simp at h'

/-! ## Concrete universes used by the witnesses and counterexamples -/

/-- Two atoms, one frame, one unit apart: a connected pair. -/
def twoAtomUniverse : Universe :=
  { allAtoms := [0, 1]
    selectAtoms := fun _ => []
    dimensions := (100, 100, 100)
    frames := [("f1", fun i => if i = 0 then (0, 0, 0) else (1, 0, 0))] }

/-- The result `determine_aggregates` produces on `twoAtomUniverse` with
cutoff 2. -/
def twoAtomResult : AggResult :=
  { description :=
      "Lists of aggregates for a given timestep. Cutoff radius r_neigh =2.0"
    data := [("f1", [[1, 0]])] }

/-- Two atoms, two frames with distinct timestep strings; the atoms are
within cutoff 2 in both frames. -/
def twoFrameUniverse : Universe :=
  { allAtoms := [0, 1]
    selectAtoms := fun _ => []
    dimensions := (100, 100, 100)
    frames := [("f1", fun i => if i = 0 then (0, 0, 0) else (1, 0, 0)),
               ("f2", fun i => if i = 0 then (0, 0, 0) else (1, 1, 0))] }

/-- One selected atom with no neighbors: the edge case of claim C2. -/
def singletonUniverse : Universe :=
  { allAtoms := [0]
    selectAtoms := fun _ => []
    dimensions := (100, 100, 100)
    frames := [("ts1", fun _ => (0, 0, 0))] }

/-- A universe with no atoms at all (e.g. an empty selection): the one case
in which a non-positive cutoff still produces a JSON document. -/
def emptyUniverse : Universe :=
  { allAtoms := []
    selectAtoms := fun _ => []
    dimensions := (100, 100, 100)
    frames := [("ts1", fun _ => (0, 0, 0))] }

/-! ## Claims C1, C2, C10 — the aggregate partition -/

/-- C1: for every frame entry of a result returned by
`determine_aggregates`, the aggregates are a true partition of the selected
particle index set: the concatenation of the aggregates is a permutation of
the selected indices, an index is selected exactly when some aggregate
contains it, and every selected index occurs exactly once over all
aggregates (no omission, no duplication).  The selected indices are assumed
pairwise distinct, as MDAnalysis guarantees for `atoms.indices`. -/
theorem claim1_aggregate_partition (u : Universe) (r : ℚ) (sel : Option String)
    (res : AggResult) (hnd : (atomsOf u sel).Nodup)
    (hok : determine_aggregates u r sel = .ok res) :
    ∀ kv ∈ res.data,
      kv.2.flatten.Perm (atomsOf u sel) ∧
        (∀ i, i ∈ atomsOf u sel ↔ ∃ agg ∈ kv.2, i ∈ agg) ∧
        ∀ i ∈ atomsOf u sel, kv.2.flatten.count i = 1 := by
  intro kv hkv
  have hdata := (determine_aggregates_ok hok).1
  have hperm : kv.2.flatten.Perm (atomsOf u sel) := by
    refine collectFrames_values
      (fun aggs => aggs.flatten.Perm (atomsOf u sel))
      (fun posFn aggs h => frameAggregates_perm hnd h)
      u.frames [] res.data (by simp) hdata kv hkv
  refine ⟨hperm, ?_, ?_⟩
  · intro i
    rw [← hperm.mem_iff]
    exact List.mem_flatten
  · intro i hi
    rw [hperm.count_eq]
    exact List.count_eq_one_of_mem hnd hi

/-- Witness for C1: on a concrete two-atom universe the hypotheses hold and
the returned single aggregate partitions the index set. -/
theorem claim1_aggregate_partition_witness :
    (atomsOf twoAtomUniverse none).Nodup ∧
      determine_aggregates twoAtomUniverse 2 none = .ok twoAtomResult ∧
      ∀ kv ∈ twoAtomResult.data,
        kv.2.flatten.Perm (atomsOf twoAtomUniverse none) ∧
          (∀ i, i ∈ atomsOf twoAtomUniverse none ↔ ∃ agg ∈ kv.2, i ∈ agg) ∧
          ∀ i ∈ atomsOf twoAtomUniverse none, kv.2.flatten.count i = 1 :=
  ⟨by decide, by with_unfolding_all rfl,
    claim1_aggregate_partition twoAtomUniverse 2 none twoAtomResult (by decide)
      (by with_unfolding_all rfl)⟩

/-- C2: the claim states that a selected particle with an empty neighbor
set still yields a singleton aggregate and that `determine_aggregates`
does not fail.  The code does fail: the particle is never added as a graph
node (only edges are added), and `nx.dfs_postorder_nodes` seeded there
raises `KeyError`.  This theorem evaluates the code at the failing input:
one selected atom, one frame, cutoff 1. -/
theorem claim2_isolated_particle_raises :
    determine_aggregates singletonUniverse 1 none = .error .keyError := by
  with_unfolding_all rfl

/-- C10: the per-atom `atom_indices_list.remove(atom)` calls in the
partition loop never raise `ValueError`: the DFS components are pairwise
disjoint subsets of the selected indices, so every yielded atom is still
unassigned when it is removed.  (The run may still abort with the
`KeyError` of claim C2 — but never with `ValueError`.) -/
theorem claim10_removal_never_fails (u : Universe) (r : ℚ)
    (sel : Option String) (hnd : (atomsOf u sel).Nodup) :
    determine_aggregates u r sel ≠ .error .valueError := fun h =>
  collectFrames_no_valueError (atomsOf u sel) u.dimensions r hnd u.frames []
    (determine_aggregates_error h)

/-- Witness for C10 at a concrete universe and cutoff. -/
theorem claim10_removal_never_fails_witness :
    (atomsOf twoAtomUniverse none).Nodup ∧
      determine_aggregates twoAtomUniverse 1 none ≠ .error .valueError :=
  ⟨by decide, claim10_removal_never_fails twoAtomUniverse 1 none (by decide)⟩

/-! ## Claim C6 — the shape of the JSON document -/

/-- C6: a result returned by `determine_aggregates` serializes to an object
with exactly the two top-level keys `description` and `data`, and the keys
of `data` are exactly the textual timestep identifiers of the input
trajectory's frames, in frame order.  The frame identifiers are assumed
pairwise distinct, as `str(ts)` contains the frame number. -/
theorem claim6_json_shape (u : Universe) (r : ℚ) (sel : Option String)
    (res : AggResult) (hnames : (u.frames.map Prod.fst).Nodup)
    (hok : determine_aggregates u r sel = .ok res) :
    ∃ dataFields : List (String × Json),
      res.toJson = Json.obj [("description", Json.str (describeOf r sel)),
                             ("data", Json.obj dataFields)] ∧
        dataFields.map Prod.fst = u.frames.map Prod.fst := by
  obtain ⟨hdata, hdesc⟩ := determine_aggregates_ok hok
  refine ⟨res.data.map (fun kv => (kv.1, Json.arr (kv.2.map (fun agg =>
    Json.arr (agg.map (fun i => Json.num (i : ℚ))))))), ?_, ?_⟩
  · simp only [AggResult.toJson, hdesc]
  · have hkeys := collectFrames_keys (atomsOf u sel) u.dimensions r u.frames
      [] res.data hdata (by simpa using hnames)
    simp only [List.map_map]
    simpa [Function.comp] using hkeys

/-- Witness for C6: two frames with identifiers `f1`, `f2` give a document
whose `data` keys are exactly `[f1, f2]` in frame order. -/
theorem claim6_json_shape_witness :
    (twoFrameUniverse.frames.map Prod.fst).Nodup ∧
      determine_aggregates twoFrameUniverse 2 none =
        .ok ⟨describeOf 2 none, [("f1", [[1, 0]]), ("f2", [[1, 0]])]⟩ ∧
      ∃ dataFields : List (String × Json),
        AggResult.toJson ⟨describeOf 2 none, [("f1", [[1, 0]]), ("f2", [[1, 0]])]⟩ =
            Json.obj [("description", Json.str (describeOf 2 none)),
                      ("data", Json.obj dataFields)] ∧
          dataFields.map Prod.fst = twoFrameUniverse.frames.map Prod.fst := by
  have hok : determine_aggregates twoFrameUniverse 2 none =
      .ok ⟨describeOf 2 none, [("f1", [[1, 0]]), ("f2", [[1, 0]])]⟩ := by
    with_unfolding_all rfl
  exact ⟨by decide, hok,
    claim6_json_shape twoFrameUniverse 2 none _ (by decide) hok⟩

/-! ## Claim C5 — the CLI does not validate the cutoff sign -/

/-- C5 counterexample: invoked with `--r_neigh -1.0`, the CLI does not
report a usage error — parsing succeeds with the value `-1`, and (here, on
a universe with an empty atom list) the analysis runs to completion and a
JSON document is printed. -/
theorem claim5_counterexample :
    parseAggArgs ["in.data", "--r_neigh", "-1.0"] =
      .ok ⟨["in.data"], -1, none⟩ ∧
    aggregation_cli ["in.data", "--r_neigh", "-1.0"] emptyUniverse =
      .output (Json.obj
        [("description", Json.str
            "Lists of aggregates for a given timestep. Cutoff radius r_neigh =-1.0"),
         ("data", Json.obj [("ts1", Json.arr [])])]) :=
  ⟨by with_unfolding_all rfl, by with_unfolding_all rfl⟩

/-- C5 amended: the CLI performs no positivity check on `--r_neigh`.  For
any value string that parses as a float — zero or negative included —
argument parsing succeeds with that value, no usage error is reported, and
the analysis is invoked (only a non-numeric value is a usage error). -/
theorem claim5_amended (s : String) (q : ℚ) (u : Universe)
    (hq : parseFloat? s = some q) (_hq0 : q ≤ 0) :
    parseAggArgs ["in.data", "--r_neigh", s] = .ok ⟨["in.data"], q, none⟩ ∧
      ∀ msg, aggregation_cli ["in.data", "--r_neigh", s] u ≠ .usageError msg := by
  have h1 : parseAggArgs ["in.data", "--r_neigh", s] =
      (match parseFloat? s with
       | some q' => parseAggArgsAux [] ["in.data"] q' none
       | none => Except.error
           ("argument --r_neigh: invalid float value: " ++ s)) := by
    with_unfolding_all rfl
  rw [hq] at h1
  have hfirst : parseAggArgs ["in.data", "--r_neigh", s] =
      .ok ⟨["in.data"], q, none⟩ := h1.trans rfl
  refine ⟨hfirst, ?_⟩
  intro msg
  have h4 : aggregation_cli ["in.data", "--r_neigh", s] u =
      (match determine_aggregates u q none with
       | .error e => CliOutcome.fatal e
       | .ok res => CliOutcome.output res.toJson) := by
    unfold aggregation_cli
    rw [hfirst]
  rw [h4]
  cases determine_aggregates u q none with
  | error e => simp
  | ok res => simp

/-- Witness for C5's amended statement at the concrete string `-1.0`. -/
theorem claim5_amended_witness :
    parseFloat? "-1.0" = some (-1) ∧ ((-1 : ℚ) ≤ 0) ∧
      (parseAggArgs ["in.data", "--r_neigh", "-1.0"] =
          .ok ⟨["in.data"], -1, none⟩ ∧
        ∀ msg, aggregation_cli ["in.data", "--r_neigh", "-1.0"] emptyUniverse ≠
          .usageError msg) :=
  ⟨by with_unfolding_all rfl, by norm_num,
    claim5_amended "-1.0" (-1) emptyUniverse (by with_unfolding_all rfl)
      (by norm_num)⟩

/-! ## The synthetic configuration generator (`create_configuration.py`)

The generator's coordinates use `math.cos`/`math.sin`, so they are embedded
over `ℝ`.  Its two sources of randomness are separate generators and are
made explicit as streams consumed in program order:

* `pstream : Nat → ℝ` — the values `random.random()` returns.  This is the
  Python `random` module generator, the one `random.seed(RANDOM_SEED)`
  seeds: across two runs this stream is the same.
* `nstream : Nat → Mat3` — the rotation matrices `Rotation.random()`
  returns.  scipy draws these from numpy's global generator, which
  `random.seed` does NOT seed: across two runs this stream can differ.
-/

/-- A 3-D point or vector with real coordinates. -/
abbrev RVec : Type := ℝ × ℝ × ℝ

/-- A 3×3 matrix given by rows: the model of a scipy `Rotation`.
`Rotation.apply` is matrix application. -/
abbrev Mat3 : Type := RVec × RVec × RVec

noncomputable def dot3 (a b : RVec) : ℝ :=
  a.1 * b.1 + a.2.1 * b.2.1 + a.2.2 * b.2.2

/-- Application of a rotation (as a matrix) to a vector, the model of
`Rotation.apply(rotation, v)`. -/
noncomputable def applyRot (m : Mat3) (v : RVec) : RVec :=
  (dot3 m.1 v, dot3 m.2.1 v, dot3 m.2.2 v)

noncomputable def vadd (a b : RVec) : RVec :=
  (a.1 + b.1, a.2.1 + b.2.1, a.2.2 + b.2.2)

noncomputable def vsub (a b : RVec) : RVec :=
  (a.1 - b.1, a.2.1 - b.2.1, a.2.2 - b.2.2)

/-- The identity rotation (a possible value of `Rotation.random()`). -/
noncomputable def idMat3 : Mat3 := ((1, 0, 0), (0, 1, 0), (0, 0, 1))

/-- Rotation by 90 degrees about the x axis (another possible value of
`Rotation.random()`). -/
noncomputable def rotXMat : Mat3 := ((1, 0, 0), (0, 0, -1), (0, 1, 0))

/-- Constants of `create_configuration.py`. -/
def RANDOM_SEED : Nat := 42

def NMOL : Nat := 4000

def NPOLY : Nat := 20

noncomputable def LBOND : ℝ := 1

noncomputable def RTUBE : ℝ := 0.53

noncomputable def PITCH : ℝ := 1.66

noncomputable def PER_TURN : ℝ := 3.3

/-- The first three entries of `CELL` (the box edges used for the random
translations). -/
noncomputable def CELL3 : RVec := (100, 100, 100)

/-- Python `system_type[:10] == "disordered"`. -/
def isDisorderedType (t : String) : Bool := t.take 10 == "disordered"

/-- Python `system_type[:6] == "random"`. -/
def isRandomWalkType (t : String) : Bool := t.take 6 == "random"

/-- Python `system_type[-4:] == "rods"`. -/
def isRodsType (t : String) : Bool := t.takeRight 4 == "rods"

/-- Python `system_type[-7:] == "helices"`. -/
def isHelicesType (t : String) : Bool := t.takeRight 7 == "helices"

/-- The "Calculating coordinates for the next atom" block: the three `if`
branches are applied in sequence, exactly as in the source; the random-walk
branch consumes one numpy rotation draw. -/
noncomputable def nextCoords (t : String) (nstream : Nat → Mat3) (iatom : Nat)
    (p : RVec) (nIdx : Nat) : RVec × Nat :=
  let s1 : RVec × Nat :=
    if isRandomWalkType t then
      (vadd p (applyRot (nstream nIdx) (0, 0, LBOND)), nIdx + 1)
    else (p, nIdx)
  let s2 : RVec := if isRodsType t then vadd s1.1 (0, 0, LBOND) else s1.1
  let s3 : RVec :=
    if isHelicesType t then
      (RTUBE * Real.cos (((iatom : ℝ) + 1) * (2 * Real.pi) / PER_TURN),
       RTUBE * Real.sin (((iatom : ℝ) + 1) * (2 * Real.pi) / PER_TURN),
       PITCH * ((iatom : ℝ) + 1) / PER_TURN)
    else s2
  (s3, s1.2)

/-- The inner atom loop of one molecule: record the current coordinates,
then update them for the next atom.  Returns the recorded local positions
and the numpy draw index after the loop.  (Made irreducible after its
one-step equations below: eagerly unfolding all `NPOLY` iterations would
duplicate the coordinate term exponentially.) -/
noncomputable def buildAtoms (t : String) (nstream : Nat → Mat3) :
    Nat → Nat → RVec → Nat → List RVec × Nat
  | 0, _, _, nIdx => ([], nIdx)
  | k + 1, iatom, p, nIdx =>
      let next := nextCoords t nstream iatom p nIdx
      let rest := buildAtoms t nstream k (iatom + 1) next.1 next.2
      (p :: rest.1, rest.2)

/-- The local (pre-rotation, pre-translation) positions of one molecule's
`NPOLY` atoms, starting from `x, y, z = 0, 0, 0`. -/
noncomputable def moleculeLocal (t : String) (nstream : Nat → Mat3)
    (nIdx : Nat) : List RVec × Nat :=
  buildAtoms t nstream NPOLY 0 (0, 0, 0) nIdx

/-- Numpy draws the atom loop of one molecule consumes. -/
def atomDraws (t : String) : Nat := if isRandomWalkType t then NPOLY else 0

/-- Numpy draws one whole molecule iteration consumes (atom loop plus the
per-molecule rotation draw of "disordered" types). -/
def molDraws (t : String) : Nat :=
  atomDraws t + (if isDisorderedType t then 1 else 0)

/-- The placement of one molecule: draw the translation (three python
draws, scaled by the box edges), for "disordered" types draw this
molecule's own rotation (the next numpy draw), rotate the local positions
and translate them. -/
noncomputable def placeMolecule (t : String) (pstream : Nat → ℝ)
    (nstream : Nat → Mat3) (sharedRot : Mat3) (pIdx nIdx : Nat) : List RVec :=
  let built := moleculeLocal t nstream nIdx
  let tv : RVec := (CELL3.1 * pstream pIdx, CELL3.2.1 * pstream (pIdx + 1),
                    CELL3.2.2 * pstream (pIdx + 2))
  let rot := if isDisorderedType t then nstream built.2 else sharedRot
  built.1.map (fun q => vadd (applyRot rot q) tv)

/-- The molecule loop: place `m` molecules, threading the python draw index
(three draws per molecule) and the numpy draw index through the loop. -/
noncomputable def placeMolecules (t : String) (pstream : Nat → ℝ)
    (nstream : Nat → Mat3) (sharedRot : Mat3) :
    Nat → Nat → Nat → List (List RVec)
  | 0, _, _ => []
  | m + 1, pIdx, nIdx =>
      let built := moleculeLocal t nstream nIdx
      let nAfter := if isDisorderedType t then built.2 + 1 else built.2
      placeMolecule t pstream nstream sharedRot pIdx nIdx ::
        placeMolecules t pstream nstream sharedRot m (pIdx + 3) nAfter

/-- The per-molecule placed positions of a generator run.  For a
non-"disordered" type a single shared rotation is drawn before the loop
(numpy draw 0); for a "disordered" type no pre-loop draw happens and the
shared-rotation slot is a dummy that is never read. -/
noncomputable def generateMolecules (t : String) (pstream : Nat → ℝ)
    (nstream : Nat → Mat3) : List (List RVec) :=
  if isDisorderedType t then
    placeMolecules t pstream nstream idMat3 NMOL 0 0
  else
    placeMolecules t pstream nstream (nstream 0) NMOL 0 1

/-- The bonds the generator creates: for `iatom > 0`, a bond
`[ix - 1, ix]` with `ix = imol * NPOLY + iatom`. -/
def generateBonds : List (Nat × Nat) :=
  (List.range NMOL).flatMap (fun imol =>
    (List.range (NPOLY - 1)).map (fun j =>
      (NPOLY * imol + j, NPOLY * imol + j + 1)))

/-- Every bond gets type label `'1'`. -/
def generateBondTypes : List String := List.replicate (NMOL * (NPOLY - 1)) "1"

/-- Every atom gets type label `'1'`. -/
def generateTypes : List String := List.replicate (NMOL * NPOLY) "1"

/-- Every atom gets mass 1.0. -/
noncomputable def generateMasses : List ℝ := List.replicate (NMOL * NPOLY) 1

/-- Molecule `imol` forms residue `imol + 1`. -/
def generateResids : List Nat :=
  (List.range NMOL).flatMap (fun imol => List.replicate NPOLY (imol + 1))

/-- Everything the generator writes to the output file. -/
structure GenOutput where
  positions : List RVec
  types : List String
  masses : List ℝ
  resids : List Nat
  bonds : List (Nat × Nat)
  bondTypes : List String

/-- Embedding of `main()` of `create_configuration.py` for a given type
token: the written configuration as a function of the two random streams.
`random.seed(42)` fixes `pstream` across runs; nothing seeds the numpy
generator behind `nstream`. -/
noncomputable def create_configuration (t : String) (pstream : Nat → ℝ)
    (nstream : Nat → Mat3) : GenOutput :=
  { positions := (generateMolecules t pstream nstream).flatten
    types := generateTypes
    masses := generateMasses
    resids := generateResids
    bonds := generateBonds
    bondTypes := generateBondTypes }

/-! ## Vector utilities (`utilities.py`) -/

/-- Euclidean norm of a row, as `np.linalg.norm(vectors, axis = 1)`
computes it. -/
noncomputable def vecNorm (v : RVec) : ℝ :=
  Real.sqrt (v.1 ^ 2 + v.2.1 ^ 2 + v.2.2 ^ 2)

/-- Embedding of `normalize_vectors(vectors)`: each row divided by its own
Euclidean norm. -/
noncomputable def normalize_vectors (vs : List RVec) : List RVec :=
  vs.map (fun v => (v.1 / vecNorm v, v.2.1 / vecNorm v, v.2.2 / vecNorm v))

/-! ## Bookkeeping for the generator proofs -/

/-- The numpy draw index at the start of molecule `imol`'s atom loop. -/
def moleculeStartIdx (t : String) (imol : Nat) : Nat :=
  (if isDisorderedType t then 0 else 1) + imol * molDraws t

/-- The numpy draw index of molecule `imol`'s own rotation ("disordered"
types only: the draw after its atom loop). -/
def rotationDrawIdx (t : String) (imol : Nat) : Nat :=
  moleculeStartIdx t imol + atomDraws t

/-- The rotation actually applied to molecule `imol`: its own draw for
"disordered" types, the one pre-loop draw (numpy draw 0) otherwise. -/
noncomputable def moleculeRotationUsed (t : String) (n : Nat → Mat3)
    (imol : Nat) : Mat3 :=
  if isDisorderedType t then n (rotationDrawIdx t imol) else n 0

/-- The random translation of molecule `imol`: the box edges times the
molecule's three python draws. -/
noncomputable def translationOf (pstream : Nat → ℝ) (imol : Nat) : RVec :=
  (CELL3.1 * pstream (3 * imol), CELL3.2.1 * pstream (3 * imol + 1),
   CELL3.2.2 * pstream (3 * imol + 2))

theorem nextCoords_snd (t : String) (n : Nat → Mat3) (iatom : Nat) (p : RVec)
    (nIdx : Nat) :
    (nextCoords t n iatom p nIdx).2 =
      nIdx + (if isRandomWalkType t then 1 else 0) := by
  by_cases h : isRandomWalkType t <;> simp [nextCoords, h]

theorem buildAtoms_snd (t : String) (n : Nat → Mat3) :
    ∀ (k iatom : Nat) (p : RVec) (nIdx : Nat),
      (buildAtoms t n k iatom p nIdx).2 =
        nIdx + (if isRandomWalkType t then k else 0) := by
  intro k
  induction k with
  | zero => intro i p nIdx; simp [buildAtoms]
  | succ k ih =>
      intro i p nIdx
      simp only [buildAtoms, ih, nextCoords_snd]
      by_cases h : isRandomWalkType t
      · simp [h]
        omega
      · simp [h]

theorem buildAtoms_length (t : String) (n : Nat → Mat3) :
    ∀ (k iatom : Nat) (p : RVec) (nIdx : Nat),
      (buildAtoms t n k iatom p nIdx).1.length = k := by
  intro k
  induction k with
  | zero => intro i p nIdx; simp [buildAtoms]
  | succ k ih => intro i p nIdx; simp [buildAtoms, ih]

theorem buildAtoms_succ (t : String) (n : Nat → Mat3) (k iatom : Nat)
    (p : RVec) (nIdx : Nat) :
    buildAtoms t n (k + 1) iatom p nIdx =
      ((p :: (buildAtoms t n k (iatom + 1) (nextCoords t n iatom p nIdx).1
          (nextCoords t n iatom p nIdx).2).1),
        (buildAtoms t n k (iatom + 1) (nextCoords t n iatom p nIdx).1
          (nextCoords t n iatom p nIdx).2).2) := by
  simp [buildAtoms]

theorem buildAtoms_head (t : String) (n : Nat → Mat3) (k iatom : Nat)
    (p : RVec) (nIdx : Nat) :
    (buildAtoms t n (k + 1) iatom p nIdx).1.head? = some p := by
  rw [buildAtoms_succ]
  rfl

theorem moleculeLocal_snd (t : String) (n : Nat → Mat3) (nIdx : Nat) :
    (moleculeLocal t n nIdx).2 = nIdx + atomDraws t := by
  simp [moleculeLocal, buildAtoms_snd, atomDraws]

theorem moleculeLocal_length (t : String) (n : Nat → Mat3) (nIdx : Nat) :
    (moleculeLocal t n nIdx).1.length = NPOLY := by
  simp [moleculeLocal, buildAtoms_length]

theorem moleculeLocal_head (t : String) (n : Nat → Mat3) (nIdx : Nat) :
    (moleculeLocal t n nIdx).1.head? = some (0, 0, 0) := by
  have h : NPOLY = 19 + 1 := rfl
  rw [moleculeLocal, h]
  exact buildAtoms_head t n 19 0 (0, 0, 0) nIdx

attribute [irreducible] buildAtoms

theorem placeMolecules_succ (t : String) (p : Nat → ℝ) (n : Nat → Mat3)
    (sh : Mat3) (m pIdx nIdx : Nat) :
    placeMolecules t p n sh (m + 1) pIdx nIdx =
      placeMolecule t p n sh pIdx nIdx ::
        placeMolecules t p n sh m (pIdx + 3) (nIdx + molDraws t) := by
  have harith : (if isDisorderedType t then nIdx + atomDraws t + 1
      else nIdx + atomDraws t) = nIdx + molDraws t := by
    by_cases hd : isDisorderedType t
    · simp [hd, molDraws, Nat.add_assoc]
    · simp [hd, molDraws]
  simp only [placeMolecules, moleculeLocal_snd]
  rw [harith]

theorem placeMolecules_get (t : String) (p : Nat → ℝ) (n : Nat → Mat3)
    (sh : Mat3) :
    ∀ (m pIdx nIdx imol : Nat), imol < m →
      (placeMolecules t p n sh m pIdx nIdx)[imol]? =
        some (placeMolecule t p n sh (pIdx + 3 * imol)
          (nIdx + imol * molDraws t)) := by
  intro m
  induction m with
  | zero => intro pIdx nIdx imol him; omega
  | succ m ih =>
      intro pIdx nIdx imol him
      rw [placeMolecules_succ]
      cases imol with
      | zero =>
          simp only [List.getElem?_cons_zero, Nat.mul_zero, Nat.zero_mul,
            Nat.add_zero]
      | succ j =>
          have hj : j < m := by omega
          rw [List.getElem?_cons_succ, ih (pIdx + 3) (nIdx + molDraws t) j hj]
          have e1 : pIdx + 3 + 3 * j = pIdx + 3 * (j + 1) := by ring
          have e2 : nIdx + molDraws t + j * molDraws t =
              nIdx + (j + 1) * molDraws t := by ring
          rw [e1, e2]

theorem placeMolecules_length (t : String) (p : Nat → ℝ) (n : Nat → Mat3)
    (sh : Mat3) :
    ∀ (m pIdx nIdx : Nat),
      (placeMolecules t p n sh m pIdx nIdx).length = m := by
  intro m
  induction m with
  | zero => intro pIdx nIdx; simp [placeMolecules]
  | succ m ih =>
      intro pIdx nIdx
      rw [placeMolecules_succ]
      simp [ih]

theorem generateMolecules_length (t : String) (p : Nat → ℝ)
    (n : Nat → Mat3) : (generateMolecules t p n).length = NMOL := by
  unfold generateMolecules
  by_cases hd : isDisorderedType t <;> simp [hd, placeMolecules_length]

/-- The molecule entries of a run, in closed form: molecule `imol` is its
local chain, rotated by the rotation the loop uses for it and shifted by
its seed-determined translation. -/
theorem generateMolecules_get (t : String) (p : Nat → ℝ) (n : Nat → Mat3)
    (imol : Nat) (him : imol < NMOL) :
    (generateMolecules t p n)[imol]? =
      some ((moleculeLocal t n (moleculeStartIdx t imol)).1.map
        (fun q => vadd (applyRot (moleculeRotationUsed t n imol) q)
          (translationOf p imol))) := by
  unfold generateMolecules
  by_cases hd : isDisorderedType t
  · rw [if_pos hd, placeMolecules_get t p n idMat3 NMOL 0 0 imol him]
    simp [placeMolecule, moleculeLocal_snd, moleculeRotationUsed,
      translationOf, moleculeStartIdx, rotationDrawIdx, hd]
  · rw [if_neg hd, placeMolecules_get t p n (n 0) NMOL 0 1 imol him]
    simp [placeMolecule, moleculeLocal_snd, moleculeRotationUsed,
      translationOf, moleculeStartIdx, rotationDrawIdx, hd]

theorem applyRot_zero (m : Mat3) : applyRot m (0, 0, 0) = (0, 0, 0) := by
  simp [applyRot, dot3]

theorem placeMolecule_head (t : String) (p : Nat → ℝ) (n : Nat → Mat3)
    (sh : Mat3) (pIdx nIdx : Nat) :
    (placeMolecule t p n sh pIdx nIdx).head? =
      some (CELL3.1 * p pIdx, CELL3.2.1 * p (pIdx + 1),
            CELL3.2.2 * p (pIdx + 2)) := by
  simp only [placeMolecule, List.head?_map, moleculeLocal_head]
  simp [applyRot, dot3, vadd]

/-! ## Local geometry of rods and helices -/

/-- The point the helix branch assigns for loop counter value `m`
(the coordinates computed "for the next atom" at `iatom = m - 1`). -/
noncomputable def helixPoint (m : Nat) : RVec :=
  (RTUBE * Real.cos ((m : ℝ) * (2 * Real.pi) / PER_TURN),
   RTUBE * Real.sin ((m : ℝ) * (2 * Real.pi) / PER_TURN),
   PITCH * (m : ℝ) / PER_TURN)

theorem nextCoords_rods (t : String) (n : Nat → Mat3) (iatom : Nat)
    (p : RVec) (nIdx : Nat) (hnw : isRandomWalkType t = false)
    (hr : isRodsType t = true) (hnh : isHelicesType t = false) :
    nextCoords t n iatom p nIdx = (vadd p (0, 0, LBOND), nIdx) := by
  simp [nextCoords, hnw, hr, hnh]

theorem nextCoords_helices (t : String) (n : Nat → Mat3) (iatom : Nat)
    (p : RVec) (nIdx : Nat) (hnw : isRandomWalkType t = false)
    (hh : isHelicesType t = true) :
    nextCoords t n iatom p nIdx = (helixPoint (iatom + 1), nIdx) := by
  simp [nextCoords, hnw, hh, helixPoint]

theorem buildAtoms_rods (t : String) (n : Nat → Mat3)
    (hnw : isRandomWalkType t = false) (hr : isRodsType t = true)
    (hnh : isHelicesType t = false) :
    ∀ (k j iatom : Nat) (p : RVec) (nIdx : Nat), j < k →
      (buildAtoms t n k iatom p nIdx).1[j]? = some (vadd p (0, 0, (j : ℝ))) := by
  intro k
  induction k with
  | zero => intro j i p nIdx hj; omega
  | succ k ih =>
      intro j i p nIdx hj
      rw [buildAtoms_succ]
      simp only [nextCoords_rods t n i p nIdx hnw hr hnh]
      cases j with
      | zero =>
          simp only [List.getElem?_cons_zero, Option.some.injEq]
          simp [vadd]
      | succ j =>
          rw [List.getElem?_cons_succ,
            ih j (i + 1) (vadd p (0, 0, LBOND)) nIdx (by omega)]
          simp only [vadd, LBOND, Prod.mk.injEq, Option.some.injEq]
          refine ⟨by ring, by ring, ?_⟩
          push_cast
          ring

theorem buildAtoms_helices (t : String) (n : Nat → Mat3)
    (hnw : isRandomWalkType t = false) (hh : isHelicesType t = true) :
    ∀ (k j iatom : Nat) (p : RVec) (nIdx : Nat), j < k →
      (buildAtoms t n k iatom p nIdx).1[j]? =
        some (if j = 0 then p else helixPoint (iatom + j)) := by
  intro k
  induction k with
  | zero => intro j i p nIdx hj; omega
  | succ k ih =>
      intro j i p nIdx hj
      rw [buildAtoms_succ]
      simp only [nextCoords_helices t n i p nIdx hnw hh]
      cases j with
      | zero => simp
      | succ j =>
          rw [List.getElem?_cons_succ,
            ih j (i + 1) (helixPoint (i + 1)) nIdx (by omega)]
          cases j with
          | zero => simp
          | succ j' =>
              simp only [Nat.succ_ne_zero, if_false, Option.some.injEq]
              exact congrArg helixPoint (by omega)

/-! ## Claim C8 — rod geometry -/

/-- C8: for a type token with suffix `"rods"` (and matching neither
random-walk nor helix shaping — true of the recognized tokens `rods` and
`disordered-rods`), the local pre-transform chain satisfies: particle `j`
sits at `(0, 0, j)`, every bond vector between consecutive particles is
`(0, 0, LBOND) = (0, 0, 1)`, and the end-to-end vector is
`(0, 0, (NPOLY - 1) * LBOND) = (0, 0, 19)`. -/
theorem claim8_rod_geometry (t : String) (nstream : Nat → Mat3) (nIdx : Nat)
    (hr : isRodsType t = true) (hnw : isRandomWalkType t = false)
    (hnh : isHelicesType t = false) :
    (∀ j, j < NPOLY →
      (moleculeLocal t nstream nIdx).1[j]? = some ((0 : ℝ), 0, (j : ℝ))) ∧
    (∀ j, j + 1 < NPOLY →
      ∃ p q : RVec, (moleculeLocal t nstream nIdx).1[j]? = some p ∧
        (moleculeLocal t nstream nIdx).1[j + 1]? = some q ∧
        vsub q p = (0, 0, LBOND)) ∧
    (∃ p q : RVec, (moleculeLocal t nstream nIdx).1[0]? = some p ∧
      (moleculeLocal t nstream nIdx).1[NPOLY - 1]? = some q ∧
      vsub q p = (0, 0, ((NPOLY : ℝ) - 1) * LBOND)) := by
  have hbase : ∀ j, j < NPOLY →
      (moleculeLocal t nstream nIdx).1[j]? = some ((0 : ℝ), 0, (j : ℝ)) := by
    intro j hj
    rw [moleculeLocal,
      buildAtoms_rods t nstream hnw hr hnh NPOLY j 0 (0, 0, 0) nIdx hj]
    simp [vadd]
  refine ⟨hbase, ?_, ?_⟩
  · intro j hj
    refine ⟨_, _, hbase j (by omega), hbase (j + 1) (by omega), ?_⟩
    simp only [vsub, LBOND, Prod.mk.injEq]
    refine ⟨by ring, by ring, ?_⟩
    push_cast
    ring
  · refine ⟨_, _, hbase 0 (by norm_num [NPOLY]),
      hbase (NPOLY - 1) (by norm_num [NPOLY]), ?_⟩
    simp only [vsub, LBOND, NPOLY, Prod.mk.injEq]
    norm_num

/-- Witness for C8 at the token `rods` with a concrete rotation stream. -/
theorem claim8_rod_geometry_witness :
    isRodsType "rods" = true ∧ isRandomWalkType "rods" = false ∧
      isHelicesType "rods" = false ∧
      ((∀ j, j < NPOLY →
        (moleculeLocal "rods" (fun _ => idMat3) 0).1[j]? =
          some ((0 : ℝ), 0, (j : ℝ))) ∧
      (∀ j, j + 1 < NPOLY →
        ∃ p q : RVec, (moleculeLocal "rods" (fun _ => idMat3) 0).1[j]? = some p ∧
          (moleculeLocal "rods" (fun _ => idMat3) 0).1[j + 1]? = some q ∧
          vsub q p = (0, 0, LBOND)) ∧
      (∃ p q : RVec, (moleculeLocal "rods" (fun _ => idMat3) 0).1[0]? = some p ∧
        (moleculeLocal "rods" (fun _ => idMat3) 0).1[NPOLY - 1]? = some q ∧
        vsub q p = (0, 0, ((NPOLY : ℝ) - 1) * LBOND))) :=
  ⟨by decide, by decide, by decide,
    claim8_rod_geometry "rods" (fun _ => idMat3) 0 (by decide) (by decide)
      (by decide)⟩

/-! ## Claim C4 — helix geometry -/

/-- C4 (amended): the helix branch computes the coordinates of the NEXT
atom, so particle 0 of a molecule sits at the local origin, and for
`1 ≤ j < NPOLY` particle `j` sits at
`(RTUBE·cos(2πj/PER_TURN), RTUBE·sin(2πj/PER_TURN), PITCH·j/PER_TURN)`
(the claim's formula shifted by one).  Hence every particle other than
particle 0 has radial distance `RTUBE = 0.53` from the helix axis, while
particle 0 has radial distance 0; the z-coordinate advances by
`PITCH / PER_TURN` per unit step of the formula index. -/
theorem claim4_helix_geometry (t : String) (nstream : Nat → Mat3)
    (nIdx : Nat) (hh : isHelicesType t = true)
    (hnw : isRandomWalkType t = false) :
    ((moleculeLocal t nstream nIdx).1[0]? = some ((0 : ℝ), 0, 0)) ∧
    (∀ j, 1 ≤ j → j < NPOLY →
      (moleculeLocal t nstream nIdx).1[j]? = some (helixPoint j) ∧
      (helixPoint j).1 ^ 2 + (helixPoint j).2.1 ^ 2 = RTUBE ^ 2 ∧
      Real.sqrt ((helixPoint j).1 ^ 2 + (helixPoint j).2.1 ^ 2) = RTUBE) ∧
    (∀ j : Nat, (helixPoint (j + 1)).2.2 - (helixPoint j).2.2 =
      PITCH / PER_TURN) := by
  have hget : ∀ j, j < NPOLY →
      (moleculeLocal t nstream nIdx).1[j]? =
        some (if j = 0 then ((0 : ℝ), 0, 0) else helixPoint j) := by
    intro j hj
    rw [moleculeLocal,
      buildAtoms_helices t nstream hnw hh NPOLY j 0 (0, 0, 0) nIdx hj]
    cases j with
    | zero => simp
    | succ j' => simp
  refine ⟨by simpa using hget 0 (by norm_num [NPOLY]), ?_, ?_⟩
  · intro j h1 hj
    have hj0 : j ≠ 0 := by omega
    have hrad : (helixPoint j).1 ^ 2 + (helixPoint j).2.1 ^ 2 = RTUBE ^ 2 := by
      simp only [helixPoint]
      have h := Real.sin_sq_add_cos_sq ((j : ℝ) * (2 * Real.pi) / PER_TURN)
      linear_combination (RTUBE : ℝ) ^ 2 * h
    refine ⟨by simpa [hj0] using hget j hj, hrad, ?_⟩
    rw [hrad]
    exact Real.sqrt_sq (by norm_num [RTUBE])
  · intro j
    simp only [helixPoint]
    have hT : PER_TURN ≠ 0 := by norm_num [PER_TURN]
    push_cast
    field_simp
    ring

/-- C4 counterexample: the claim as stated asserts that every particle,
particle 0 included, has pre-transform radial distance 0.53 from the helix
axis and coordinates given by the `(i + 1)`-formula; but particle 0 is
recorded before the formula is first applied and sits at the local origin,
at radial distance 0 ≠ 0.53. -/
theorem claim4_counterexample :
    (moleculeLocal "helices" (fun _ => idMat3) 0).1[0]? =
        some ((0 : ℝ), 0, 0) ∧
      Real.sqrt ((0 : ℝ) ^ 2 + (0 : ℝ) ^ 2) ≠ RTUBE := by
  constructor
  · rw [moleculeLocal, buildAtoms_helices "helices" (fun _ => idMat3)
      (by decide) (by decide) NPOLY 0 0 (0, 0, 0) 0 (by norm_num [NPOLY])]
    simp
  · rw [show ((0 : ℝ) ^ 2 + (0 : ℝ) ^ 2) = 0 by norm_num, Real.sqrt_zero]
    norm_num [RTUBE]

/-- Witness for C4's amended statement at the token `helices`, j = 2. -/
theorem claim4_helix_geometry_witness :
    isHelicesType "helices" = true ∧ isRandomWalkType "helices" = false ∧
      (((moleculeLocal "helices" (fun _ => idMat3) 0).1[0]? =
          some ((0 : ℝ), 0, 0)) ∧
      (∀ j, 1 ≤ j → j < NPOLY →
        (moleculeLocal "helices" (fun _ => idMat3) 0).1[j]? =
            some (helixPoint j) ∧
          (helixPoint j).1 ^ 2 + (helixPoint j).2.1 ^ 2 = RTUBE ^ 2 ∧
          Real.sqrt ((helixPoint j).1 ^ 2 + (helixPoint j).2.1 ^ 2) = RTUBE) ∧
      (∀ j : Nat, (helixPoint (j + 1)).2.2 - (helixPoint j).2.2 =
        PITCH / PER_TURN)) :=
  ⟨by decide, by decide,
    claim4_helix_geometry "helices" (fun _ => idMat3) 0 (by decide) (by decide)⟩

/-! ## Claim C7 — shared versus per-molecule rotation -/

/-- C7: molecule `imol` of a run consists of its local chain rotated by
`moleculeRotationUsed` and shifted by its translation; when the type token
does not start with `"disordered"`, that rotation is the single numpy draw
made before the molecule loop (draw 0, the same for all 4000 molecules);
when it does, it is the molecule's own draw, made inside the loop just
before placement, and distinct molecules use pairwise distinct draws. -/
theorem claim7_rotation_policy (t : String) (pstream : Nat → ℝ)
    (nstream : Nat → Mat3) (imol : Nat) (him : imol < NMOL) :
    (generateMolecules t pstream nstream)[imol]? =
      some ((moleculeLocal t nstream (moleculeStartIdx t imol)).1.map
        (fun q => vadd (applyRot (moleculeRotationUsed t nstream imol) q)
          (translationOf pstream imol))) ∧
    (isDisorderedType t = false →
      moleculeRotationUsed t nstream imol = nstream 0) ∧
    (isDisorderedType t = true →
      moleculeRotationUsed t nstream imol = nstream (rotationDrawIdx t imol) ∧
      ∀ jmol : Nat, jmol ≠ imol →
        rotationDrawIdx t jmol ≠ rotationDrawIdx t imol) := by
  refine ⟨generateMolecules_get t pstream nstream imol him, ?_, ?_⟩
  · intro hd
    simp [moleculeRotationUsed, hd]
  · intro hd
    refine ⟨by simp [moleculeRotationUsed, hd], ?_⟩
    intro jmol hne hcontr
    have hpos : 0 < molDraws t := by
      simp [molDraws, hd]
    have hmul : jmol * molDraws t = imol * molDraws t := by
      simp only [rotationDrawIdx, moleculeStartIdx, hd, if_true,
        Nat.zero_add] at hcontr
      omega
    exact hne (Nat.eq_of_mul_eq_mul_right hpos hmul)

/-- Witness for C7 at the token `disordered-rods`, molecule 1. -/
theorem claim7_rotation_policy_witness :
    1 < NMOL ∧
      ((generateMolecules "disordered-rods" (fun _ => 0) (fun _ => idMat3))[1]? =
        some ((moleculeLocal "disordered-rods" (fun _ => idMat3)
            (moleculeStartIdx "disordered-rods" 1)).1.map
          (fun q => vadd (applyRot (moleculeRotationUsed "disordered-rods"
              (fun _ => idMat3) 1) q)
            (translationOf (fun _ => 0) 1))) ∧
      (isDisorderedType "disordered-rods" = false →
        moleculeRotationUsed "disordered-rods" (fun _ => idMat3) 1 =
          (fun _ => idMat3) 0) ∧
      (isDisorderedType "disordered-rods" = true →
        moleculeRotationUsed "disordered-rods" (fun _ => idMat3) 1 =
          (fun _ => idMat3) (rotationDrawIdx "disordered-rods" 1) ∧
        ∀ jmol : Nat, jmol ≠ 1 →
          rotationDrawIdx "disordered-rods" jmol ≠
            rotationDrawIdx "disordered-rods" 1)) :=
  ⟨by norm_num [NMOL],
    claim7_rotation_policy "disordered-rods" (fun _ => 0) (fun _ => idMat3) 1
      (by norm_num [NMOL])⟩

/-! ## Claim C3 — what the fixed seed does and does not determine -/

theorem placeMolecule_length (t : String) (p : Nat → ℝ) (n : Nat → Mat3)
    (sh : Mat3) (pIdx nIdx : Nat) :
    (placeMolecule t p n sh pIdx nIdx).length = NPOLY := by
  simp [placeMolecule, moleculeLocal_length]

theorem generateMolecules_rods_head (pstream : Nat → ℝ)
    (nstream : Nat → Mat3) :
    generateMolecules "rods" pstream nstream =
      placeMolecule "rods" pstream nstream (nstream 0) 0 1 ::
        placeMolecules "rods" pstream nstream (nstream 0) 3999 3
          (1 + molDraws "rods") := by
  rw [generateMolecules, if_neg (by decide), show NMOL = 3999 + 1 from rfl,
    placeMolecules_succ]

/-- The second particle written by a `rods` run, in closed form: its
position depends on the rotation stream. -/
theorem rods_config_second_atom (pstream : Nat → ℝ) (nstream : Nat → Mat3) :
    (create_configuration "rods" pstream nstream).positions[1]? =
      some (vadd (applyRot (nstream 0) (vadd (0, 0, 0) (0, 0, ((1 : Nat) : ℝ))))
        (CELL3.1 * pstream 0, CELL3.2.1 * pstream 1, CELL3.2.2 * pstream 2)) := by
  show ((generateMolecules "rods" pstream nstream).flatten)[1]? = _
  rw [generateMolecules_rods_head, List.flatten_cons,
    List.getElem?_append_left (by rw [placeMolecule_length]; norm_num [NPOLY])]
  simp only [placeMolecule, List.getElem?_map]
  rw [moleculeLocal, buildAtoms_rods "rods" nstream (by decide) (by decide)
    (by decide) NPOLY 1 0 (0, 0, 0) 1 (by norm_num [NPOLY])]
  simp only [Option.map_some', isDisorderedType]
  rfl

/-- C3 counterexample: two runs with the same type token and the same
seeded python stream, but different rotation streams — as happens across
real runs, since `random.seed(42)` does not seed the generator behind
`Rotation.random()` — produce different outputs. -/
theorem claim3_counterexample :
    create_configuration "rods" (fun _ => 0) (fun _ => idMat3) ≠
      create_configuration "rods" (fun _ => 0) (fun _ => rotXMat) := by
  intro hcontr
  have h := congrArg (fun g : GenOutput => g.positions[1]?) hcontr
  simp only at h
  rw [rods_config_second_atom, rods_config_second_atom] at h
  simp only [Option.some.injEq] at h
  have h2 := congrArg (fun v : RVec => v.2.1) h
  simp only [vadd, applyRot, dot3, idMat3, rotXMat, CELL3] at h2
  norm_num at h2

/-- C3 (amended): two runs of the generator with the same type token share
the topology — particle types, masses, residues, bonds and bond types —
and the seed-determined molecule translations: molecule `imol`'s first
particle lands at `CELL * (r_{3imol}, r_{3imol+1}, r_{3imol+2})` computed
from the seeded python stream, whatever the rotation stream is.  The
rotations, however, come from the unseeded numpy generator, so full
positional identity is not guaranteed (see the counterexample). -/
theorem claim3_amended (t : String) (pstream : Nat → ℝ)
    (n1 n2 : Nat → Mat3) (imol : Nat) :
    (create_configuration t pstream n1).types =
      (create_configuration t pstream n2).types ∧
    (create_configuration t pstream n1).masses =
      (create_configuration t pstream n2).masses ∧
    (create_configuration t pstream n1).resids =
      (create_configuration t pstream n2).resids ∧
    (create_configuration t pstream n1).bonds =
      (create_configuration t pstream n2).bonds ∧
    (create_configuration t pstream n1).bondTypes =
      (create_configuration t pstream n2).bondTypes ∧
    ((generateMolecules t pstream n1)[imol]?).map List.head? =
      ((generateMolecules t pstream n2)[imol]?).map List.head? ∧
    (imol < NMOL →
      ((generateMolecules t pstream n1)[imol]?).map List.head? =
        some (some (translationOf pstream imol))) := by
  have hhead : ∀ (n : Nat → Mat3), imol < NMOL →
      ((generateMolecules t pstream n)[imol]?).map List.head? =
        some (some (translationOf pstream imol)) := by
    intro n him
    rw [generateMolecules_get t pstream n imol him]
    simp only [Option.map_some', List.head?_map, moleculeLocal_head]
    rw [applyRot_zero]
    simp [vadd, translationOf]
  refine ⟨rfl, rfl, rfl, rfl, rfl, ?_, hhead n1⟩
  by_cases him : imol < NMOL
  · rw [hhead n1 him, hhead n2 him]
  · have h1 : (generateMolecules t pstream n1)[imol]? = none :=
      List.getElem?_eq_none (by rw [generateMolecules_length]; omega)
    have h2 : (generateMolecules t pstream n2)[imol]? = none :=
      List.getElem?_eq_none (by rw [generateMolecules_length]; omega)
    rw [h1, h2]

/-- Witness for C3's amended statement at the token `rods`, molecule 0,
with two concrete rotation streams. -/
theorem claim3_amended_witness :
    ((create_configuration "rods" (fun _ => 0) (fun _ => idMat3)).types =
      (create_configuration "rods" (fun _ => 0) (fun _ => rotXMat)).types ∧
    (create_configuration "rods" (fun _ => 0) (fun _ => idMat3)).masses =
      (create_configuration "rods" (fun _ => 0) (fun _ => rotXMat)).masses ∧
    (create_configuration "rods" (fun _ => 0) (fun _ => idMat3)).resids =
      (create_configuration "rods" (fun _ => 0) (fun _ => rotXMat)).resids ∧
    (create_configuration "rods" (fun _ => 0) (fun _ => idMat3)).bonds =
      (create_configuration "rods" (fun _ => 0) (fun _ => rotXMat)).bonds ∧
    (create_configuration "rods" (fun _ => 0) (fun _ => idMat3)).bondTypes =
      (create_configuration "rods" (fun _ => 0) (fun _ => rotXMat)).bondTypes ∧
    ((generateMolecules "rods" (fun _ => 0) (fun _ => idMat3))[0]?).map
        List.head? =
      ((generateMolecules "rods" (fun _ => 0) (fun _ => rotXMat))[0]?).map
        List.head? ∧
    (0 < NMOL →
      ((generateMolecules "rods" (fun _ => 0) (fun _ => idMat3))[0]?).map
          List.head? =
        some (some (translationOf (fun _ => 0) 0)))) ∧ 0 < NMOL :=
  ⟨claim3_amended "rods" (fun _ => 0) (fun _ => idMat3) (fun _ => rotXMat) 0,
    by norm_num [NMOL]⟩

/-! ## Claim C9 — vector normalization -/

theorem vecNorm_smul (a : ℝ) (v : RVec) :
    vecNorm (a * v.1, a * v.2.1, a * v.2.2) = |a| * vecNorm v := by
  unfold vecNorm
  rw [show (a * v.1) ^ 2 + (a * v.2.1) ^ 2 + (a * v.2.2) ^ 2 =
    a ^ 2 * (v.1 ^ 2 + v.2.1 ^ 2 + v.2.2 ^ 2) from by ring]
  rw [Real.sqrt_mul (sq_nonneg a), Real.sqrt_sq_eq_abs]

/-- C9: on an input whose rows are all non-zero, `normalize_vectors`
returns a same-length list whose `i`-th row is the `i`-th input row divided
by its own Euclidean norm; every output row has Euclidean norm 1 and is a
positive scalar multiple of its input row. -/
theorem claim9_normalize_vectors (vs : List RVec)
    (hnz : ∀ v ∈ vs, v ≠ ((0 : ℝ), (0 : ℝ), (0 : ℝ))) :
    (normalize_vectors vs).length = vs.length ∧
    ∀ (i : Nat) (v : RVec), vs[i]? = some v →
      (normalize_vectors vs)[i]? =
        some (v.1 / vecNorm v, v.2.1 / vecNorm v, v.2.2 / vecNorm v) ∧
      vecNorm (v.1 / vecNorm v, v.2.1 / vecNorm v, v.2.2 / vecNorm v) = 1 ∧
      ∃ c : ℝ, 0 < c ∧
        (v.1 / vecNorm v, v.2.1 / vecNorm v, v.2.2 / vecNorm v) =
          (c * v.1, c * v.2.1, c * v.2.2) := by
  constructor
  · simp [normalize_vectors]
  · intro i v hv
    have hvmem : v ∈ vs := List.getElem?_mem hv
    have hvne := hnz v hvmem
    have hsum : 0 < v.1 ^ 2 + v.2.1 ^ 2 + v.2.2 ^ 2 := by
      obtain ⟨x, y, z⟩ := v
      simp only at hvne ⊢
      have hne : x ≠ 0 ∨ y ≠ 0 ∨ z ≠ 0 := by
        by_contra hc
        push_neg at hc
        exact hvne (by simp [hc.1, hc.2.1, hc.2.2, Prod.ext_iff])
      rcases hne with hx | hy | hz
      · have hx2 : 0 < x ^ 2 :=
          lt_of_le_of_ne (sq_nonneg x) (Ne.symm (pow_ne_zero 2 hx))
        nlinarith [sq_nonneg y, sq_nonneg z]
      · have hy2 : 0 < y ^ 2 :=
          lt_of_le_of_ne (sq_nonneg y) (Ne.symm (pow_ne_zero 2 hy))
        nlinarith [sq_nonneg x, sq_nonneg z]
      · have hz2 : 0 < z ^ 2 :=
          lt_of_le_of_ne (sq_nonneg z) (Ne.symm (pow_ne_zero 2 hz))
        nlinarith [sq_nonneg x, sq_nonneg y]
    have hnorm : 0 < vecNorm v := by
      unfold vecNorm
      exact Real.sqrt_pos.mpr hsum
    have hrw : (v.1 / vecNorm v, v.2.1 / vecNorm v, v.2.2 / vecNorm v) =
        ((1 / vecNorm v) * v.1, (1 / vecNorm v) * v.2.1,
          (1 / vecNorm v) * v.2.2) := by
      rw [Prod.mk.injEq, Prod.mk.injEq]
      exact ⟨by ring, by ring, by ring⟩
    refine ⟨?_, ?_, ?_⟩
    · rw [normalize_vectors, List.getElem?_map, hv, Option.map_some']
    · rw [hrw, vecNorm_smul, abs_of_pos (by positivity)]
      field_simp
    · exact ⟨1 / vecNorm v, by positivity, hrw⟩

/-- Witness for C9 on the single row `(3, 4, 0)`. -/
theorem claim9_normalize_vectors_witness :
    (∀ v ∈ [((3 : ℝ), 4, 0)], v ≠ ((0 : ℝ), (0 : ℝ), (0 : ℝ))) ∧
      ((normalize_vectors [((3 : ℝ), 4, 0)]).length =
          ([((3 : ℝ), 4, 0)] : List RVec).length ∧
        ∀ (i : Nat) (v : RVec), ([((3 : ℝ), 4, 0)] : List RVec)[i]? = some v →
          (normalize_vectors [((3 : ℝ), 4, 0)])[i]? =
            some (v.1 / vecNorm v, v.2.1 / vecNorm v, v.2.2 / vecNorm v) ∧
          vecNorm (v.1 / vecNorm v, v.2.1 / vecNorm v, v.2.2 / vecNorm v) = 1 ∧
          ∃ c : ℝ, 0 < c ∧
            (v.1 / vecNorm v, v.2.1 / vecNorm v, v.2.2 / vecNorm v) =
              (c * v.1, c * v.2.1, c * v.2.2)) := by
  have hnz : ∀ v ∈ [((3 : ℝ), 4, 0)], v ≠ ((0 : ℝ), (0 : ℝ), (0 : ℝ)) := by
    intro v hv
    simp only [List.mem_singleton] at hv
    subst hv
    norm_num [Prod.ext_iff]
  exact ⟨hnz, claim9_normalize_vectors [((3 : ℝ), 4, 0)] hnz⟩

end Mouse2
